import Mathlib

/-!
Verification of the tabular data pipeline of the TTCAnalysis repository
(src/app.py): a Streamlit application that loads a CSV file from a remote
byte source with pandas `read_csv`, shows it in a grid, lets the user
re-export it with `to_csv(index=False)`, and computes per-column summaries
(`describe`) and top value frequencies (`value_counts().head(n)`).

The embedding models text as lists of Unicode code points (`Text`), tables
as a header of column names plus row-major cell lists, and the CSV layer as
an explicit quote-aware scanner over the code points, with UTF-8 handled by
an explicit byte-level decoder/encoder.  Numbers are `Int` and `Rat` (the
decimal rationals produced by the float parser); nothing here uses machine
floats.
-/

/-- Text is modelled as a list of Unicode code points. -/
abbrev Text := List Nat

/-- Convert a Lean string literal to its code-point list. -/
def strToText (s : String) : Text := s.data.map Char.toNat

/-- Code point of the quote character. -/
def qc : Nat := 34

/-- Code point of the comma field delimiter. -/
def cc : Nat := 44

/-- Code point of the newline record separator. -/
def nlc : Nat := 10

/-- Code point of the carriage return. -/
def crc : Nat := 13

/-- Is the code point an ASCII decimal digit. -/
def isDigitC (c : Nat) : Bool := 48 ≤ c && c ≤ 57

/-- ASCII lowercasing of one code point, as CPython's `str.lower` acts on the
ASCII range (the only part relevant to the `.csv` suffix test and to the
case-folded substring search over ASCII search terms). -/
def lowerC (c : Nat) : Nat := if 65 ≤ c && c ≤ 90 then c + 32 else c

/-- ASCII lowercasing of a text. -/
def lowerText (t : Text) : Text := t.map lowerC

/-- Digit list (most significant first) of a natural number, with fuel for
structural recursion; `renderNat` supplies enough fuel. -/
def renderNatAux : Nat → Nat → Text
  | 0, _ => []
  | fuel + 1, n => if n < 10 then [48 + n] else renderNatAux fuel (n / 10) ++ [48 + n % 10]

/-- Decimal rendering of a natural number, mirroring Python's `str`. -/
def renderNat (n : Nat) : Text := renderNatAux (n + 1) n

/-- Decimal rendering of an integer, mirroring Python's `str`. -/
def renderInt (n : Int) : Text :=
  if n < 0 then 45 :: renderNat n.natAbs else renderNat n.toNat

/-- Value of a digit string read most-significant-first. -/
def digitsVal (ds : Text) : Nat := ds.foldl (fun a d => a * 10 + (d - 48)) 0

/-- Parse a nonempty all-digit string as a natural number. -/
def parseNatText (ds : Text) : Option Nat :=
  if ds ≠ [] && ds.all isDigitC then some (digitsVal ds) else none

/-- Parse an optionally signed nonempty digit string as an integer, modelling
the integer conversion pandas applies to a CSV field. -/
def parseIntText (f : Text) : Option Int :=
  match f with
  | [] => none
  | c :: ds =>
    if c = 45 then (parseNatText ds).map (fun n => -(Int.ofNat n))
    else if c = 43 then (parseNatText ds).map (fun n => Int.ofNat n)
    else (parseNatText (c :: ds)).map (fun n => Int.ofNat n)

/-- Split a text at the first decimal point, if any. -/
def splitPoint : Text → Text × Option Text
  | [] => ([], none)
  | c :: cs =>
    if c = 46 then ([], some cs)
    else
      let r := splitPoint cs
      (c :: r.1, r.2)

/-- Rational value of a natural number. -/
def natToRat (n : Nat) : Rat := (n : Rat)

/-- Parse an unsigned decimal literal `digits[.digits]` (at least one digit
overall) as an exact rational. -/
def parseUnsignedDec (f : Text) : Option Rat :=
  match splitPoint f with
  | (ip, none) => (parseNatText ip).map natToRat
  | (ip, some fp) =>
    if (ip.all isDigitC && fp.all isDigitC) && (ip ≠ [] || fp ≠ []) then
      some ((digitsVal ip : Rat) + (digitsVal fp : Rat) / (10 : Rat) ^ fp.length)
    else none

/-- Parse an optionally signed decimal literal as an exact rational, modelling
the float conversion pandas applies to a CSV field. -/
def parseFloatText (f : Text) : Option Rat :=
  match f with
  | [] => none
  | c :: ds =>
    if c = 45 then (parseUnsignedDec ds).map (fun q => -q)
    else if c = 43 then parseUnsignedDec ds
    else parseUnsignedDec (c :: ds)

/-- Missing-data tokens of the pandas CSV reader: a field equal to one of
these parses as null (`NaN`). -/
def naTokens : List Text :=
  [strToText "", strToText "#N/A", strToText "#N/A N/A", strToText "#NA",
   strToText "-1.#IND", strToText "-1.#QNAN", strToText "-NaN", strToText "-nan",
   strToText "1.#IND", strToText "1.#QNAN", strToText "<NA>", strToText "N/A",
   strToText "NA", strToText "NULL", strToText "NaN", strToText "None",
   strToText "n/a", strToText "nan", strToText "null"]

/-- Does a field denote missing data. -/
def toNull (f : Text) : Bool := naTokens.contains f

/-- A cell of a table: null, integer, decimal rational (the embedding of a
parsed float), or text. -/
inductive Cell where
  | null : Cell
  | int (n : Int) : Cell
  | float (q : Rat) : Cell
  | str (s : Text) : Cell
deriving DecidableEq, Repr

/-- A table: ordered column names plus row-major cells. -/
structure Table where
  header : List Text
  rows : List (List Cell)
deriving DecidableEq, Repr

/-- A table is well formed when it is rectangular. -/
def Table.wf (t : Table) : Prop := ∀ r ∈ t.rows, r.length = t.header.length

/-- Scanner mode: at the start of a field, inside an unquoted field, inside a
quoted field, or just after a quote inside a quoted field. -/
inductive Mode where
  | startF : Mode
  | unq : Mode
  | inq : Mode
  | postq : Mode
deriving DecidableEq, Repr

/-- Quote-aware CSV scanner over code points, modelling the pandas tokenizer
with default options: comma delimiter, double-quote quoting with doubled
quotes as escapes, newline record separator, blank lines skipped.  Arguments:
current mode, current field, fields of the current record, completed records,
remaining input. -/
def scan (m : Mode) (field : Text) (rec : List Text) (acc : List (List Text)) :
    Text → List (List Text)
  | [] =>
    if m = .startF && field.isEmpty && rec.isEmpty then acc
    else acc ++ [rec ++ [field]]
  | c :: cs =>
    match m with
    | .startF =>
      if c = qc then scan .inq [] rec acc cs
      else if c = cc then scan .startF [] (rec ++ [[]]) acc cs
      else if c = nlc then
        if rec.isEmpty then scan .startF [] [] acc cs
        else scan .startF [] [] (acc ++ [rec ++ [[]]]) cs
      else scan .unq [c] rec acc cs
    | .unq =>
      if c = cc then scan .startF [] (rec ++ [field]) acc cs
      else if c = nlc then scan .startF [] [] (acc ++ [rec ++ [field]]) cs
      else scan .unq (field ++ [c]) rec acc cs
    | .inq =>
      if c = qc then scan .postq field rec acc cs
      else scan .inq (field ++ [c]) rec acc cs
    | .postq =>
      if c = qc then scan .inq (field ++ [qc]) rec acc cs
      else if c = cc then scan .startF [] (rec ++ [field]) acc cs
      else if c = nlc then scan .startF [] [] (acc ++ [rec ++ [field]]) cs
      else scan .unq (field ++ [c]) rec acc cs

/-- Records of a CSV document. -/
def records (text : Text) : List (List Text) := scan .startF [] [] [] text

/-- Inferred column type. -/
inductive ColType where
  | int : ColType
  | float : ColType
  | text : ColType
deriving DecidableEq, Repr

/-- Infer a column's type from its raw fields: integer when every field is
null or parses as an integer, float when every field is null or parses as a
decimal, text otherwise (pandas' try-int, try-float, fall-back-to-object
conversion). -/
def inferColType (fields : List Text) : ColType :=
  if fields.all (fun f => toNull f || (parseIntText f).isSome) then .int
  else if fields.all (fun f => toNull f || (parseFloatText f).isSome) then .float
  else .text

/-- Convert one raw field at an inferred column type. -/
def convertField (τ : ColType) (f : Text) : Cell :=
  if toNull f then .null
  else
    match τ with
    | .int =>
      match parseIntText f with
      | some n => .int n
      | none => .str f
    | .float =>
      match parseFloatText f with
      | some q => .float q
      | none => .str f
    | .text => .str f

/-- Pad a short record with empty fields up to the header width, as the
pandas reader fills missing trailing fields with nulls. -/
def padRow (n : Nat) (r : List Text) : List Text := r ++ List.replicate (n - r.length) []

/-- Raw fields of column `j`. -/
def colFields (rs : List (List Text)) (j : Nat) : List Text := rs.map (fun r => r.getD j [])

/-- Replacement name for an empty header field, as pandas renames empty
header fields to `Unnamed: i`. -/
def unnamedText (i : Nat) : Text := strToText "Unnamed: " ++ renderNat i

/-- Rename empty header fields positionally. -/
def fixHeaderAux : Nat → List Text → List Text
  | _, [] => []
  | i, n :: ns => (if n = [] then unnamedText i else n) :: fixHeaderAux (i + 1) ns

/-- Build a table from a header record and data records. -/
def mkTable (header : List Text) (dataRecs : List (List Text)) : Table :=
  let n := header.length
  let padded := dataRecs.map (padRow n)
  let types := (List.range n).map (fun j => inferColType (colFields padded j))
  ⟨fixHeaderAux 0 header, padded.map (fun r => List.zipWith convertField types r)⟩

/-- Parse failures of the loader, mirroring pandas: no records at all
(`EmptyDataError`), a data record wider than the header (`ParserError`), or
undecodable bytes (`UnicodeDecodeError`). -/
inductive ParseError where
  | emptyData : ParseError
  | tokenizing : ParseError
  | encoding : ParseError
deriving DecidableEq, Repr

/-- Load a table from decoded text: the `read_csv` call of
`load_dropbox_csv` (src/app.py line 38) after byte decoding.  The first
record is the header.  The first data record fixes the expected field
count: a later record with more fields raises the tokenizer's
`ParserError`.  When the first data record is wider than the header,
`read_csv` treats the extra leading fields of every row as index
columns (index-column inference); the DataFrame's named columns receive
the remaining fields, so the loader drops the leading
`first.length - header.length` fields of each data record. -/
def loadText (text : Text) : Except ParseError Table :=
  match records text with
  | [] => .error .emptyData
  | header :: dataRecs =>
    match dataRecs with
    | [] => .ok (mkTable header [])
    | first :: rest =>
      if (first :: rest).any (fun r => first.length < r.length) then .error .tokenizing
      else .ok (mkTable header
          ((first :: rest).map (fun r => r.drop (first.length - header.length))))

/-- Is the code point a Unicode scalar value (what UTF-8 can encode). -/
def ValidScalar (n : Nat) : Prop := n < 55296 ∨ (57344 ≤ n ∧ n < 1114112)

instance (n : Nat) : Decidable (ValidScalar n) := by
  unfold ValidScalar; infer_instance

/-- UTF-8 encoding of one scalar value. -/
def utf8EncodeChar (n : Nat) : List Nat :=
  if n < 128 then [n]
  else if n < 2048 then [192 + n / 64, 128 + n % 64]
  else if n < 65536 then [224 + n / 4096, 128 + n / 64 % 64, 128 + n % 64]
  else [240 + n / 262144, 128 + n / 4096 % 64, 128 + n / 64 % 64, 128 + n % 64]

/-- UTF-8 encoding of a text. -/
def utf8Encode (t : Text) : List Nat := (t.map utf8EncodeChar).flatten

/-- Is the byte a UTF-8 continuation byte. -/
def isCont (b : Nat) : Bool := 128 ≤ b && b < 192

/-- Decode one UTF-8 sequence: the leading byte and the remaining bytes give
one scalar value and the rest, or fail on an invalid leading byte, truncated
or malformed sequence, overlong encoding, surrogate, or point beyond
U+10FFFF. -/
def utf8Step (b : Nat) (bs : List Nat) : Option (Nat × List Nat) :=
  if b < 128 then some (b, bs)
  else if 194 ≤ b && b ≤ 223 then
    match bs with
    | b2 :: bs' =>
      if isCont b2 then some ((b - 192) * 64 + (b2 - 128), bs') else none
    | [] => none
  else if 224 ≤ b && b ≤ 239 then
    match bs with
    | b2 :: b3 :: bs' =>
      if isCont b2 && isCont b3 then
        let n := (b - 224) * 4096 + (b2 - 128) * 64 + (b3 - 128)
        if 2048 ≤ n && decide (ValidScalar n) then some (n, bs') else none
      else none
    | _ => none
  else if 240 ≤ b && b ≤ 244 then
    match bs with
    | b2 :: b3 :: b4 :: bs' =>
      if isCont b2 && isCont b3 && isCont b4 then
        let n := (b - 240) * 262144 + (b2 - 128) * 4096 + (b3 - 128) * 64 + (b4 - 128)
        if 65536 ≤ n && n < 1114112 then some (n, bs') else none
      else none
    | _ => none
  else none

/-- Strict UTF-8 decoding loop; the fuel only bounds recursion depth and
`utf8Decode` supplies the byte count, which always suffices since every
sequence consumes at least one byte. -/
def utf8DecodeAux : Nat → List Nat → Option Text
  | _, [] => some []
  | 0, _ :: _ => none
  | fuel + 1, b :: bs =>
    match utf8Step b bs with
    | none => none
    | some (n, rest) => (utf8DecodeAux fuel rest).map (n :: ·)

/-- Strict UTF-8 decoding of a byte list to code points. -/
def utf8Decode (bs : List Nat) : Option Text := utf8DecodeAux bs.length bs

/-- Load a table from raw bytes: UTF-8 decoding followed by CSV parsing,
the behaviour of `pd.read_csv(io.BytesIO(res.content))` in
`load_dropbox_csv` (src/app.py lines 37-38). -/
def loadBytes (bs : List Nat) : Except ParseError Table :=
  match utf8Decode bs with
  | none => .error .encoding
  | some text => loadText text

/-- Bytes of a Lean string literal. -/
def strToBytes (s : String) : List Nat := utf8Encode (strToText s)

/-- Does a field need quoting on export: it contains the delimiter, a quote,
or a line break (the minimal quoting of `to_csv`). -/
def needsQuote (f : Text) : Bool := f.any (fun c => c = cc || c = qc || c = nlc || c = crc)

/-- Double every quote in a field. -/
def escQuotes (f : Text) : Text := f.flatMap (fun c => if c = qc then [qc, qc] else [c])

/-- Render one field with minimal quoting. -/
def renderField (f : Text) : Text :=
  if needsQuote f then qc :: escQuotes f ++ [qc] else f

/-- Render one record: fields joined by commas. -/
def renderRecord (r : List Text) : Text :=
  match r with
  | [] => []
  | f :: fs => renderField f ++ (fs.map (fun g => cc :: renderField g)).flatten

/-- Render a document: every record followed by a newline. -/
def renderDoc (rs : List (List Text)) : Text :=
  (rs.map (fun r => renderRecord r ++ [nlc])).flatten

/-- Smallest decimal exponent that clears the denominator of a decimal
rational (searched up to the denominator, which suffices for any rational
whose denominator divides a power of ten). -/
def decExp (q : Rat) : Nat :=
  ((List.range (q.den + 1)).find? (fun e => (q * 10 ^ e).den = 1)).getD q.den

/-- Decimal rendering of a nonnegative decimal rational: an integer part, a
point, and exactly `decExp q` fractional digits (at least one, as pandas
prints whole floats with a trailing `.0`). -/
def renderNonnegRat (q : Rat) : Text :=
  let e := decExp q
  if e = 0 then renderNat q.num.toNat ++ [46, 48]
  else
    let ds := renderNat (q * 10 ^ e).num.toNat
    let padded := List.replicate (e + 1 - ds.length) 48 ++ ds
    padded.take (padded.length - e) ++ 46 :: padded.drop (padded.length - e)

/-- Decimal rendering of a decimal rational, mirroring how `to_csv` prints a
float column (whole values keep a `.0`). -/
def renderRat (q : Rat) : Text :=
  if q < 0 then 45 :: renderNonnegRat (-q) else renderNonnegRat q

/-- Render a cell to its exported field: nulls export as the empty field. -/
def renderCell : Cell → Text
  | .null => []
  | .int n => renderInt n
  | .float q => renderRat q
  | .str s => s

/-- Export a table to delimited text (`to_csv(index=False)`): the header
record then one record per row. -/
def exportText (t : Table) : Text :=
  renderDoc (t.header :: t.rows.map (fun r => r.map renderCell))

/-- Export a table to UTF-8 bytes, as `to_csv(index=False, encoding='utf-8')`
at src/app.py line 156. -/
def exportBytes (t : Table) : List Nat := utf8Encode (exportText t)

/-- Non-null cells of a column (`value_counts` and `describe` skip nulls). -/
def nonNull (cells : List Cell) : List Cell := cells.filter (fun c => c ≠ Cell.null)

/-- Distinct elements of a list in order of first appearance, given the
elements already seen. -/
def uniquesAux {α : Type} [DecidableEq α] (seen : List α) : List α → List α
  | [] => []
  | v :: vs => if v ∈ seen then uniquesAux seen vs else v :: uniquesAux (v :: seen) vs

/-- Distinct elements of a list in order of first appearance. -/
def uniques {α : Type} [DecidableEq α] (l : List α) : List α := uniquesAux [] l

/-- Frequency pairs of a column in first-appearance order. -/
def freqPairs (cells : List Cell) : List (Cell × Nat) :=
  (uniques (nonNull cells)).map (fun v => (v, (nonNull cells).count v))

/-- Ranking order on first-appearance-indexed frequency pairs: strictly
greater count first, equal counts in first-appearance order.  This is the
ordering of `value_counts()` with the tie policy fixed to first-seen order. -/
def rankLE (p q : Nat × (Cell × Nat)) : Prop :=
  q.2.2 < p.2.2 ∨ (p.2.2 = q.2.2 ∧ p.1 ≤ q.1)

instance : DecidableRel rankLE := by
  intro p q; unfold rankLE; infer_instance

instance : IsTotal (Nat × (Cell × Nat)) rankLE := by
  constructor; intro p q; unfold rankLE; omega

instance : IsTrans (Nat × (Cell × Nat)) rankLE := by
  constructor; intro p q r; unfold rankLE; omega

/-- Full frequency ranking of a column: pairs sorted by count descending,
ties in first-appearance order. -/
def rankedPairs (cells : List Cell) : List (Cell × Nat) :=
  (List.insertionSort rankLE (freqPairs cells).enum).map Prod.snd

/-- Top-n value frequencies of a column: the model of
`df[col].value_counts().head(top_n)` at src/app.py line 81. -/
def valueCountsTop (cells : List Cell) (topN : Nat) : List (Cell × Nat) :=
  (rankedPairs cells).take topN

/-- Cells of column `j` of a table. -/
def colCells (t : Table) (j : Nat) : List Cell :=
  t.rows.map (fun r => r.getD j Cell.null)

/-- Error raised when an aggregation names an absent column. -/
inductive ColumnNotFoundError where
  | mk : ColumnNotFoundError
deriving DecidableEq, Repr

/-- Frequency aggregation by column name: fails on a missing column (the
`KeyError` of `df[col]`), otherwise ranks the column's non-null values. -/
def columnFrequencies (t : Table) (c : Text) (topN : Nat) :
    Except ColumnNotFoundError (List (Cell × Nat)) :=
  if c ∈ t.header then .ok (valueCountsTop (colCells t (t.header.indexOf c)) topN)
  else .error .mk

/-- Count of non-null cells in a column. -/
def nonNullCount (cells : List Cell) : Nat := (nonNull cells).length

/-- Is `pat` a contiguous sublist of the text. -/
def hasSub (pat : Text) : Text → Bool
  | [] => pat.isEmpty
  | c :: cs => pat.isPrefixOf (c :: cs) || hasSub pat cs

/-- Display text of a cell for the substring search. -/
def cellText : Cell → Text
  | .null => []
  | .int n => renderInt n
  | .float q => renderRat q
  | .str s => s

/-- Does some cell of the row contain the case-folded term. -/
def rowMatches (term : Text) (r : List Cell) : Bool :=
  r.any (fun cell => hasSub (lowerText term) (lowerText (cellText cell)))

/-- Modelled from the spec: `filterBySubstring(table, term)` (spec section
4).  The repository variant with a search box is not under src/ (row search
in src/app.py is delegated to the AgGrid widget), so this follows the spec's
words: keep the rows where at least one cell's case-folded text contains the
case-folded term; an empty term returns the table unchanged. -/
def filterBySubstring (t : Table) (term : Text) : Table :=
  if term = [] then t else ⟨t.header, t.rows.filter (rowMatches term)⟩

/-- Per-column summary as in spec section 3: type tag, non-null and null
counts, numeric min/max/mean, text distinct count. -/
structure ColumnSummary where
  dtype : ColType
  count : Nat
  nullCount : Nat
  minV : Option Rat
  maxV : Option Rat
  meanV : Option Rat
  distinct : Option Nat
deriving DecidableEq, Repr

/-- Numeric value of a cell, when it has one. -/
def cellToRat : Cell → Option Rat
  | .int n => some (n : Rat)
  | .float q => some q
  | .str _ => none
  | .null => none

/-- Type tag of a column of cells. -/
def cellsType (cells : List Cell) : ColType :=
  if (nonNull cells).all (fun c => match c with | .int _ => true | _ => false) then .int
  else if (nonNull cells).all (fun c => (cellToRat c).isSome) then .float
  else .text

/-- Summary of one column, the model of one column of
`df.describe(include='all')` at src/app.py line 72: total over every column,
with numeric aggregates absent when there is no numeric value. -/
def summarizeCol (cells : List Cell) : ColumnSummary :=
  let nn := nonNull cells
  let τ := cellsType cells
  let nums := nn.filterMap cellToRat
  { dtype := τ
    count := nn.length
    nullCount := (cells.filter (fun c => c = Cell.null)).length
    minV := if τ = .text then none else nums.min?
    maxV := if τ = .text then none else nums.max?
    meanV := if τ = .text ∨ nums.length = 0 then none else some (nums.sum / (nums.length : Rat))
    distinct := if τ = .text then some (uniques nn).length else none }

/-- Summaries of every column, the model of `visualize_schema`'s
`df.describe(include='all')` (src/app.py lines 67-72). -/
def describeTable (t : Table) : List (Text × ColumnSummary) :=
  (List.range t.header.length).map
    (fun j => (t.header.getD j [], summarizeCol (colCells t j)))

/-- Failure of the external byte source (`dropbox.exceptions` at
src/app.py line 39 catches everything). -/
inductive SourceUnavailableError where
  | mk : SourceUnavailableError
deriving DecidableEq, Repr

/-- The empty `pd.DataFrame()` returned by `load_dropbox_csv` on failure. -/
def emptyTable : Table := ⟨[], []⟩

/-- Emptiness test of a DataFrame (`df.empty`): some axis has length zero. -/
def Table.isEmptyTable (t : Table) : Bool := t.header.isEmpty || t.rows.isEmpty

/-- The model of `load_dropbox_csv` (src/app.py lines 35-41): given the
outcome of the byte-source download, parses on success and returns the empty
DataFrame on any download or parse failure, never propagating an error. -/
def load_dropbox_csv (dl : Except SourceUnavailableError (List Nat)) : Table :=
  match dl with
  | .error _ => emptyTable
  | .ok bs =>
    match loadBytes bs with
    | .error _ => emptyTable
    | .ok t => t

/-- The model of the CSV selection filter at src/app.py line 139:
`[f for f in files if f.lower().endswith('.csv')]`. -/
def csvFiles (files : List Text) : List Text :=
  files.filter (fun f => (strToText ".csv").isSuffixOf (lowerText f))

/-- Outputs of one full request in `main` (src/app.py lines 149-170): the
grid's re-filtered table and its export, the schema summary, and the top
occurrences of the selected column. -/
structure RequestOutputs where
  gridTable : Table
  exported : List Nat
  schema : List (Text × ColumnSummary)
  topOcc : Except ColumnNotFoundError (List (Cell × Nat))
deriving Repr

/-- Application state threaded through one request: the loaded source table.
Each step below receives the state and may in principle return a changed
one; the theorems check that none does. -/
structure AppState where
  df : Table
deriving DecidableEq, Repr

/-- The model of `display_table_with_features` (src/app.py lines 44-64): the
grid widget applies its own filter (an opaque function here) and a new
DataFrame is built from its response. -/
def displayStep (grid : Table → Table) (s : AppState) : AppState × Table :=
  (s, grid s.df)

/-- The model of the download button's data (src/app.py line 156). -/
def exportStep (s : AppState) (shown : Table) : AppState × List Nat :=
  (s, exportBytes shown)

/-- The model of `visualize_schema` (src/app.py lines 67-72). -/
def schemaStep (s : AppState) : AppState × List (Text × ColumnSummary) :=
  (s, describeTable s.df)

/-- The model of `visualize_top_occurrences` (src/app.py lines 75-84). -/
def topOccStep (s : AppState) (c : Text) (topN : Nat) :
    AppState × Except ColumnNotFoundError (List (Cell × Nat)) :=
  (s, columnFrequencies s.df c topN)

/-- One full request over a loaded table, in the order of `main`
(src/app.py lines 149-170). -/
def runRequest (grid : Table → Table) (c : Text) (topN : Nat) (s : AppState) :
    AppState × RequestOutputs :=
  let (s1, shown) := displayStep grid s
  let (s2, ex) := exportStep s1 shown
  let (s3, sch) := schemaStep s2
  let (s4, top) := topOccStep s3 c topN
  (s4, ⟨shown, ex, sch, top⟩)

/-- The model of the load-and-dispatch step of `main` (src/app.py lines
149-151): load, then skip every display/export/aggregation step when the
result is empty. -/
def mainStep (grid : Table → Table) (c : Text) (topN : Nat)
    (dl : Except SourceUnavailableError (List Nat)) : Option RequestOutputs :=
  let df := load_dropbox_csv dl
  if df.isEmptyTable then none
  else some (runRequest grid c topN ⟨df⟩).2

instance {ε α : Type} [DecidableEq ε] [DecidableEq α] : DecidableEq (Except ε α) := fun x y =>
  match x, y with
  | .ok a, .ok b =>
    if h : a = b then .isTrue (by rw [h]) else .isFalse (fun hh => h (by cases hh; rfl))
  | .error a, .error b =>
    if h : a = b then .isTrue (by rw [h]) else .isFalse (fun hh => h (by cases hh; rfl))
  | .ok _, .error _ => .isFalse (fun hh => by cases hh)
  | .error _, .ok _ => .isFalse (fun hh => by cases hh)

/-- A rational is decimal when some power of ten clears its denominator
(every value the float parser produces is decimal). -/
def IsDecimalRat (q : Rat) : Prop := ∃ k, (q * 10 ^ k).den = 1

/-- Every code point of the text is a Unicode scalar value. -/
def ValidText (s : Text) : Prop := ∀ c ∈ s, ValidScalar c

/-- Shape invariant of one loaded column: all null-or-integer, or all
null-or-decimal-float with at least one float, or all null-or-text with no
missing-data token among the texts and at least one text that does not parse
as a decimal.  This is exactly what lets a re-load of the column's rendering
infer the same type and recover the same cells. -/
def ColOK (cs : List Cell) : Prop :=
  (∀ c ∈ cs, c = Cell.null ∨ ∃ n, c = Cell.int n)
  ∨ ((∀ c ∈ cs, c = Cell.null ∨ ∃ q, c = Cell.float q ∧ IsDecimalRat q)
      ∧ ∃ c ∈ cs, ∃ q, c = Cell.float q)
  ∨ ((∀ c ∈ cs, c = Cell.null ∨ ∃ s, c = Cell.str s ∧ toNull s = false ∧ ValidText s)
      ∧ ∃ c ∈ cs, ∃ s, c = Cell.str s ∧ parseFloatText s = none)

/-- Invariant of every table produced by a successful load: rectangular,
at least one column, nonempty valid column names, and every column shaped
as `ColOK`. -/
def LoadedInv (t : Table) : Prop :=
  t.wf
  ∧ 1 ≤ t.header.length
  ∧ (∀ n ∈ t.header, n ≠ [] ∧ ValidText n)
  ∧ ∀ j < t.header.length, ColOK (colCells t j)

/-- C10: a listed file is offered for loading exactly when its name,
lowercased, ends with ".csv"; every other name is excluded, and the
selection keeps the folder's order. -/
theorem csv_selection_spec (files : List Text) (f : Text) :
    (f ∈ csvFiles files ↔
      f ∈ files ∧ (strToText ".csv").isSuffixOf (lowerText f) = true)
    ∧ (csvFiles files).Sublist files := by
  constructor
  · simp [csvFiles, List.mem_filter]
  · exact List.filter_sublist _

/-- C8: one full request (grid display, export, schema, top occurrences)
returns the application state with the loaded table unchanged, and every
output is a pure derivation of that table. -/
theorem request_preserves_source_table (grid : Table → Table) (c : Text)
    (topN : Nat) (s : AppState) :
    (runRequest grid c topN s).1 = s
    ∧ (runRequest grid c topN s).2.gridTable = grid s.df
    ∧ (runRequest grid c topN s).2.exported = exportBytes (grid s.df)
    ∧ (runRequest grid c topN s).2.schema = describeTable s.df
    ∧ (runRequest grid c topN s).2.topOcc = columnFrequencies s.df c topN := by
  refine ⟨rfl, rfl, rfl, rfl, rfl⟩

/-- C9: the loader never propagates an error: a failed download or a failed
parse yields the empty DataFrame, and the caller skips the whole request
when the loaded table is empty. -/
theorem load_failure_yields_empty_table :
    (∀ e, load_dropbox_csv (.error e) = emptyTable)
    ∧ (∀ bs err, loadBytes bs = .error err → load_dropbox_csv (.ok bs) = emptyTable)
    ∧ (∀ grid c topN dl, (load_dropbox_csv dl).isEmptyTable = true →
        mainStep grid c topN dl = none) := by
  refine ⟨fun e => rfl, fun bs err h => ?_, fun grid c topN dl h => ?_⟩
  · simp [load_dropbox_csv, h]
  · simp [mainStep, h]

/-- Witness for C9 at concrete inputs: a failed download and an empty file. -/
theorem load_failure_yields_empty_table_witness :
    load_dropbox_csv (.error .mk) = emptyTable
    ∧ load_dropbox_csv (.ok (strToBytes "")) = emptyTable
    ∧ mainStep id [] 1 (.ok (strToBytes "")) = none :=
  ⟨load_failure_yields_empty_table.1 .mk,
   load_failure_yields_empty_table.2.1 (strToBytes "") .emptyData (by decide),
   load_failure_yields_empty_table.2.2 id [] 1 (.ok (strToBytes "")) (by decide)⟩

/-- C6: the frequency aggregation fails with `ColumnNotFoundError` exactly
when the named column is absent from the table's header. -/
theorem column_frequencies_missing_column (t : Table) (c : Text) (topN : Nat) :
    (columnFrequencies t c topN = .error .mk) ↔ c ∉ t.header := by
  unfold columnFrequencies
  by_cases h : c ∈ t.header <;> simp [h]

/-- C7: filtering by the empty term is the identity, filtering is
idempotent, and a nonempty term keeps exactly the rows with a cell whose
case-folded text contains the case-folded term, in original order. -/
theorem filter_by_substring_spec (t : Table) (term : Text) :
    filterBySubstring t [] = t
    ∧ filterBySubstring (filterBySubstring t term) term = filterBySubstring t term
    ∧ (term ≠ [] →
        (filterBySubstring t term).header = t.header
        ∧ (filterBySubstring t term).rows = t.rows.filter (rowMatches term)
        ∧ (filterBySubstring t term).rows.Sublist t.rows) := by
  refine ⟨by simp [filterBySubstring], ?_, ?_⟩
  · by_cases h : term = []
    · subst h; simp [filterBySubstring]
    · simp only [filterBySubstring, if_neg h]
      congr 1
      simp [List.filter_filter]
  · intro h
    refine ⟨?_, ?_, ?_⟩
    · simp [filterBySubstring, h]
    · simp [filterBySubstring, h]
    · simp only [filterBySubstring, if_neg h]
      exact List.filter_sublist _

/-- Witness for C7 at the spec's scenario table and the term "X". -/
theorem filter_by_substring_spec_witness :
    strToText "X" ≠ []
    ∧ (filterBySubstring ⟨[strToText "a", strToText "b"],
        [[Cell.int 1, Cell.str (strToText "x")], [Cell.int 2, Cell.str (strToText "y")],
         [Cell.int 1, Cell.str (strToText "z")]]⟩ (strToText "X")).rows
      = [[Cell.int 1, Cell.str (strToText "x")]] := by
  constructor
  · decide
  · have h := (filter_by_substring_spec ⟨[strToText "a", strToText "b"],
      [[Cell.int 1, Cell.str (strToText "x")], [Cell.int 2, Cell.str (strToText "y")],
       [Cell.int 1, Cell.str (strToText "z")]]⟩ (strToText "X")).2.2 (by decide)
    rw [h.2.1]
    decide

/-- Entry `j` of `describeTable` is the summary of column `j`. -/
theorem describeTable_getD (t : Table) (j : Nat) (hj : j < t.header.length) (d) :
    (describeTable t).getD j d = (t.header.getD j [], summarizeCol (colCells t j)) := by
  simp [describeTable, List.getD_eq_getElem?_getD, List.getElem?_map, List.getElem?_range, hj]

/-- C5: `describe` is total on every well-formed table, producing one
summary per column; on an all-null column the non-null count is zero, the
null count is the row count, and min, max and mean are all absent. -/
theorem describe_total_all_null (t : Table) (_hwf : t.wf) :
    (describeTable t).length = t.header.length
    ∧ (∀ j, j < t.header.length → ∀ d,
        ((describeTable t).getD j d).1 = t.header.getD j [])
    ∧ (∀ j, j < t.header.length → (∀ cl ∈ colCells t j, cl = Cell.null) → ∀ d,
        ((describeTable t).getD j d).2.count = 0
        ∧ ((describeTable t).getD j d).2.nullCount = t.rows.length
        ∧ ((describeTable t).getD j d).2.minV = none
        ∧ ((describeTable t).getD j d).2.maxV = none
        ∧ ((describeTable t).getD j d).2.meanV = none) := by
  refine ⟨by simp [describeTable], ?_, ?_⟩
  · intro j hj d
    rw [describeTable_getD t j hj]
  · intro j hj hnull d
    rw [describeTable_getD t j hj]
    have hnn : nonNull (colCells t j) = [] := by
      simp only [nonNull, List.filter_eq_nil_iff]
      intro c hc
      simp [hnull c hc]
    have hfull : (colCells t j).filter (fun c => c = Cell.null) = colCells t j := by
      rw [List.filter_eq_self]
      intro c hc
      simp [hnull c hc]
    have hlen : (colCells t j).length = t.rows.length := by
      simp [colCells]
    have hτ : cellsType (colCells t j) = ColType.int := by
      simp [cellsType, hnn]
    refine ⟨?_, ?_, ?_, ?_, ?_⟩ <;>
      simp [summarizeCol, hnn, hfull, hlen, hτ]

/-- Witness for C5 at a table with an all-null first column. -/
theorem describe_total_all_null_witness :
    (⟨[strToText "a", strToText "b"],
      [[Cell.null, Cell.int 1], [Cell.null, Cell.int 2]]⟩ : Table).wf
    ∧ ((describeTable ⟨[strToText "a", strToText "b"],
        [[Cell.null, Cell.int 1], [Cell.null, Cell.int 2]]⟩).getD 0
          ([], summarizeCol [])).2.count = 0
    ∧ ((describeTable ⟨[strToText "a", strToText "b"],
        [[Cell.null, Cell.int 1], [Cell.null, Cell.int 2]]⟩).getD 0
          ([], summarizeCol [])).2.meanV = none := by
  have hwf : (⟨[strToText "a", strToText "b"],
      [[Cell.null, Cell.int 1], [Cell.null, Cell.int 2]]⟩ : Table).wf := by
    intro r hr
    fin_cases hr <;> decide
  have h := (describe_total_all_null ⟨[strToText "a", strToText "b"],
      [[Cell.null, Cell.int 1], [Cell.null, Cell.int 2]]⟩ hwf).2.2 0 (by decide)
      (by decide) ([], summarizeCol [])
  exact ⟨hwf, h.1, h.2.2.2.2⟩

theorem mem_uniquesAux {α : Type} [DecidableEq α] (seen l : List α) (a : α) :
    a ∈ uniquesAux seen l ↔ a ∈ l ∧ a ∉ seen := by
  induction l generalizing seen with
  | nil => simp [uniquesAux]
  | cons v vs ih =>
    by_cases hv : v ∈ seen
    · simp only [uniquesAux, if_pos hv, ih, List.mem_cons]
      constructor
      · rintro ⟨h1, h2⟩; exact ⟨Or.inr h1, h2⟩
      · rintro ⟨h1 | h1, h2⟩
        · subst h1; exact absurd hv h2
        · exact ⟨h1, h2⟩
    · simp only [uniquesAux, if_neg hv, List.mem_cons, ih, List.mem_cons]
      constructor
      · rintro (h | ⟨h1, h2⟩)
        · subst h; exact ⟨Or.inl rfl, hv⟩
        · exact ⟨Or.inr h1, fun hs => h2 (Or.inr hs)⟩
      · rintro ⟨h1 | h1, h2⟩
        · exact Or.inl h1
        · by_cases hav : a = v
          · exact Or.inl hav
          · exact Or.inr ⟨h1, fun hs => by
              rcases hs with h3 | h3
              · exact hav h3
              · exact h2 h3⟩

theorem nodup_uniquesAux {α : Type} [DecidableEq α] (seen l : List α) :
    (uniquesAux seen l).Nodup := by
  induction l generalizing seen with
  | nil => simp [uniquesAux]
  | cons v vs ih =>
    by_cases hv : v ∈ seen
    · simpa [uniquesAux, if_pos hv] using ih seen
    · simp only [uniquesAux, if_neg hv, List.nodup_cons]
      refine ⟨fun hmem => ?_, ih (v :: seen)⟩
      exact ((mem_uniquesAux (v :: seen) vs v).mp hmem).2 (List.mem_cons_self v seen)

theorem pairwise_indexOf_uniquesAux {α : Type} [DecidableEq α] (seen l : List α) :
    (uniquesAux seen l).Pairwise (fun a b => l.indexOf a < l.indexOf b) := by
  induction l generalizing seen with
  | nil => simp [uniquesAux]
  | cons v vs ih =>
    have transfer : ∀ seen', v ∈ seen' →
        (uniquesAux seen' vs).Pairwise (fun a b => (v :: vs).indexOf a < (v :: vs).indexOf b) := by
      intro seen' hv
      refine (ih seen').imp_of_mem ?_
      intro a b ha hb hab
      have hav : a ≠ v := fun h =>
        ((mem_uniquesAux seen' vs a).mp ha).2 (h ▸ hv)
      have hbv : b ≠ v := fun h =>
        ((mem_uniquesAux seen' vs b).mp hb).2 (h ▸ hv)
      rw [List.indexOf_cons_ne _ (Ne.symm hav), List.indexOf_cons_ne _ (Ne.symm hbv)]
      omega
    by_cases hv : v ∈ seen
    · rw [uniquesAux, if_pos hv]
      exact transfer seen hv
    · rw [uniquesAux, if_neg hv]
      refine List.Pairwise.cons ?_ (transfer (v :: seen) (List.mem_cons_self v seen))
      intro b hb
      have hbv : b ≠ v := fun h =>
        ((mem_uniquesAux (v :: seen) vs b).mp hb).2 (h ▸ List.mem_cons_self v seen)
      rw [List.indexOf_cons_self, List.indexOf_cons_ne _ (Ne.symm hbv)]
      omega

theorem uniques_mem {α : Type} [DecidableEq α] (l : List α) (a : α) :
    a ∈ uniques l ↔ a ∈ l := by
  simp [uniques, mem_uniquesAux]

theorem uniques_nodup {α : Type} [DecidableEq α] (l : List α) : (uniques l).Nodup :=
  nodup_uniquesAux [] l

theorem uniques_pairwise_indexOf {α : Type} [DecidableEq α] (l : List α) :
    (uniques l).Pairwise (fun a b => l.indexOf a < l.indexOf b) :=
  pairwise_indexOf_uniquesAux [] l

theorem sum_count_of_nodup {α : Type} [DecidableEq α] (us vs : List α)
    (hnd : us.Nodup) (hcov : ∀ v ∈ vs, v ∈ us) :
    (us.map (fun u => vs.count u)).sum = vs.length := by
  induction vs with
  | nil => simp
  | cons v vs ih =>
    have hcov' : ∀ w ∈ vs, w ∈ us := fun w hw => hcov w (List.mem_cons_of_mem v hw)
    have hsum : ∀ us : List α, (us.map (fun u => (v :: vs).count u)).sum
        = (us.map (fun u => vs.count u)).sum + us.count v := by
      intro us
      induction us with
      | nil => simp
      | cons u us ihu =>
        simp only [List.map_cons, List.sum_cons, ihu]
        rw [List.count_cons, List.count_cons]
        by_cases hu : u = v
        · subst hu
          simp
          omega
        · have h1 : (u == v) = false := by simp [hu]
          have h2 : (v == u) = false := by simp [Ne.symm hu]
          rw [h1, h2]
          omega
    rw [hsum us, ih hcov']
    have hone : us.count v = 1 := List.count_eq_one_of_mem hnd (hcov v (List.mem_cons_self v vs))
    simp [hone]

theorem rankedPairs_perm (cells : List Cell) : (rankedPairs cells).Perm (freqPairs cells) := by
  have h1 : (List.insertionSort rankLE (freqPairs cells).enum).Perm (freqPairs cells).enum :=
    List.perm_insertionSort rankLE _
  have h2 := h1.map Prod.snd
  rwa [List.enum_map_snd] at h2

theorem rankedPairs_sorted (cells : List Cell) :
    (rankedPairs cells).Pairwise (fun p q => q.2 ≤ p.2) := by
  have hS : (List.insertionSort rankLE (freqPairs cells).enum).Pairwise rankLE :=
    List.sorted_insertionSort rankLE _
  exact hS.map Prod.snd (fun a b hab => by
    rcases hab with h | h
    · omega
    · omega)

theorem freqPairs_getElem? (cells : List Cell) (i : Nat) (p : Cell × Nat)
    (h : (freqPairs cells)[i]? = some p) :
    (uniques (nonNull cells))[i]? = some p.1 ∧ p.2 = (nonNull cells).count p.1 := by
  rw [freqPairs, List.getElem?_map] at h
  cases hu : (uniques (nonNull cells))[i]? with
  | none =>
    rw [hu] at h
    exact Option.noConfusion h
  | some v =>
    rw [hu] at h
    rw [Option.map_some'] at h
    cases Option.some.inj h
    exact ⟨rfl, rfl⟩

theorem rankedPairs_ties (cells : List Cell) :
    (rankedPairs cells).Pairwise (fun p q => p.2 = q.2 →
      (nonNull cells).indexOf p.1 ≤ (nonNull cells).indexOf q.1) := by
  have hS : (List.insertionSort rankLE (freqPairs cells).enum).Pairwise rankLE :=
    List.sorted_insertionSort rankLE _
  have hidx := (List.pairwise_iff_getElem).mp (uniques_pairwise_indexOf (nonNull cells))
  have hmemE : ∀ e, e ∈ List.insertionSort rankLE (freqPairs cells).enum →
      e ∈ (freqPairs cells).enum :=
    fun e he => (List.perm_insertionSort rankLE _).mem_iff.mp he
  have hstep : (List.insertionSort rankLE (freqPairs cells).enum).Pairwise
      (fun e1 e2 => e1.2.2 = e2.2.2 →
        (nonNull cells).indexOf e1.2.1 ≤ (nonNull cells).indexOf e2.2.1) := by
    refine hS.imp_of_mem ?_
    intro e1 e2 h1 h2 hle htie
    have he1 := List.mem_enum_iff_getElem?.mp (hmemE e1 h1)
    have he2 := List.mem_enum_iff_getElem?.mp (hmemE e2 h2)
    obtain ⟨hu1, _⟩ := freqPairs_getElem? cells e1.1 e1.2 he1
    obtain ⟨hu2, _⟩ := freqPairs_getElem? cells e2.1 e2.2 he2
    have hij : e1.1 ≤ e2.1 := by
      rcases hle with h | h
      · omega
      · exact h.2
    rcases Nat.lt_or_ge e1.1 e2.1 with hlt | hge
    · have hi : e1.1 < (uniques (nonNull cells)).length := by
        have := List.getElem?_eq_some_iff.mp hu1
        exact this.1
      have hj : e2.1 < (uniques (nonNull cells)).length := by
        have := List.getElem?_eq_some_iff.mp hu2
        exact this.1
      have := hidx e1.1 e2.1 hi hj hlt
      have hv1 : (uniques (nonNull cells))[e1.1] = e1.2.1 := by
        have h := List.getElem?_eq_some_iff.mp hu1
        exact h.2
      have hv2 : (uniques (nonNull cells))[e2.1] = e2.2.1 := by
        have h := List.getElem?_eq_some_iff.mp hu2
        exact h.2
      rw [hv1, hv2] at this
      omega
    · have heq : e1.1 = e2.1 := by omega
      rw [heq] at hu1
      rw [hu1] at hu2
      have : e1.2.1 = e2.2.1 := by
        injection hu2 with h
      rw [this]
  exact hstep.map Prod.snd (fun a b hab => hab)

theorem rankedPairs_mem (cells : List Cell) (p : Cell × Nat) (hp : p ∈ rankedPairs cells) :
    p.1 ∈ uniques (nonNull cells) ∧ p.2 = (nonNull cells).count p.1 := by
  have hmem : p ∈ freqPairs cells := (rankedPairs_perm cells).mem_iff.mp hp
  rw [freqPairs] at hmem
  obtain ⟨v, hv, hpv⟩ := List.mem_map.mp hmem
  cases hpv
  exact ⟨hv, rfl⟩

theorem rankedPairs_fst_perm (cells : List Cell) :
    ((rankedPairs cells).map Prod.fst).Perm (uniques (nonNull cells)) := by
  have h := (rankedPairs_perm cells).map Prod.fst
  have hfst : (freqPairs cells).map Prod.fst = uniques (nonNull cells) := by
    rw [freqPairs, List.map_map]
    exact List.map_id'' (fun v => rfl) _
  rwa [hfst] at h

theorem rankedPairs_snd_sum (cells : List Cell) :
    ((rankedPairs cells).map Prod.snd).sum = nonNullCount cells := by
  have h := ((rankedPairs_perm cells).map Prod.snd).sum_eq
  rw [h]
  have hsnd : (freqPairs cells).map Prod.snd
      = (uniques (nonNull cells)).map (fun v => (nonNull cells).count v) := by
    rw [freqPairs, List.map_map]
    rfl
  rw [hsnd, nonNullCount]
  exact sum_count_of_nodup _ _ (uniques_nodup _) (fun v hv => (uniques_mem _ v).mpr hv)

/-- C1: for an existing column and topN at least one, the frequency
aggregation returns the first topN entries of the full ranking, whose pairs
carry the exact occurrence count of each distinct non-null value of the
column, sorted by count descending with ties in order of first appearance,
with exactly one entry per distinct non-null value (so a large topN returns
them all without padding). -/
theorem column_frequencies_spec (t : Table) (c : Text) (topN : Nat)
    (hc : c ∈ t.header) (_htop : 1 ≤ topN) :
    ∃ full : List (Cell × Nat),
      columnFrequencies t c topN = .ok (full.take topN)
      ∧ (∀ p ∈ full, p.1 ≠ Cell.null
          ∧ p.2 = (colCells t (t.header.indexOf c)).count p.1)
      ∧ full.Pairwise (fun p q => q.2 ≤ p.2)
      ∧ full.Pairwise (fun p q => p.2 = q.2 →
          (nonNull (colCells t (t.header.indexOf c))).indexOf p.1
            ≤ (nonNull (colCells t (t.header.indexOf c))).indexOf q.1)
      ∧ (full.map Prod.fst).Nodup
      ∧ (∀ v, v ∈ full.map Prod.fst ↔
          v ≠ Cell.null ∧ v ∈ colCells t (t.header.indexOf c))
      ∧ full.length = (uniques (nonNull (colCells t (t.header.indexOf c)))).length := by
  set cells := colCells t (t.header.indexOf c) with hcells
  refine ⟨rankedPairs cells, ?_, ?_, rankedPairs_sorted cells, rankedPairs_ties cells, ?_, ?_, ?_⟩
  · rw [columnFrequencies, if_pos hc]
    rfl
  · intro p hp
    obtain ⟨hmem, hcount⟩ := rankedPairs_mem cells p hp
    have hp1 : p.1 ∈ nonNull cells := (uniques_mem _ p.1).mp hmem
    have hne : p.1 ≠ Cell.null := by
      have := List.mem_filter.mp hp1
      simpa using this.2
    refine ⟨hne, ?_⟩
    rw [hcount, nonNull, List.count_filter]
    simp [hne]
  · exact ((rankedPairs_fst_perm cells).nodup_iff).mpr (uniques_nodup _)
  · intro v
    rw [(rankedPairs_fst_perm cells).mem_iff, uniques_mem]
    constructor
    · intro hv
      have := List.mem_filter.mp hv
      refine ⟨by simpa using this.2, this.1⟩
    · intro ⟨hne, hv⟩
      rw [nonNull, List.mem_filter]
      exact ⟨hv, by simpa using hne⟩
  · have hl := (rankedPairs_fst_perm cells).length_eq
    rw [List.length_map] at hl
    exact hl

/-- Witness for C1 at the spec's scenario: "a,b" with integer column values
1, 2, 1 and topN 10. -/
theorem column_frequencies_spec_witness :
    strToText "a" ∈ (⟨[strToText "a", strToText "b"],
        [[Cell.int 1, Cell.str (strToText "x")], [Cell.int 2, Cell.str (strToText "y")],
         [Cell.int 1, Cell.str (strToText "z")]]⟩ : Table).header
    ∧ 1 ≤ 10
    ∧ ∃ full : List (Cell × Nat), columnFrequencies ⟨[strToText "a", strToText "b"],
        [[Cell.int 1, Cell.str (strToText "x")], [Cell.int 2, Cell.str (strToText "y")],
         [Cell.int 1, Cell.str (strToText "z")]]⟩ (strToText "a") 10 = .ok (full.take 10)
        ∧ (∀ p ∈ full, p.1 ≠ Cell.null
            ∧ p.2 = (colCells ⟨[strToText "a", strToText "b"],
                [[Cell.int 1, Cell.str (strToText "x")], [Cell.int 2, Cell.str (strToText "y")],
                 [Cell.int 1, Cell.str (strToText "z")]]⟩
                ((⟨[strToText "a", strToText "b"],
                [[Cell.int 1, Cell.str (strToText "x")], [Cell.int 2, Cell.str (strToText "y")],
                 [Cell.int 1, Cell.str (strToText "z")]]⟩ : Table).header.indexOf
                  (strToText "a"))).count p.1) := by
  refine ⟨by decide, by decide, ?_⟩
  obtain ⟨full, h1, h2, _⟩ := column_frequencies_spec ⟨[strToText "a", strToText "b"],
      [[Cell.int 1, Cell.str (strToText "x")], [Cell.int 2, Cell.str (strToText "y")],
       [Cell.int 1, Cell.str (strToText "z")]]⟩ (strToText "a") 10 (by decide) (by decide)
  exact ⟨full, h1, h2⟩

/-- C4: whenever the frequency aggregation succeeds, its counts sum to at
most the column's non-null count, with equality when topN is at least the
number of distinct non-null values. -/
theorem frequency_counts_sum (t : Table) (c : Text) (topN : Nat)
    (out : List (Cell × Nat)) (h : columnFrequencies t c topN = .ok out) :
    (out.map Prod.snd).sum ≤ nonNullCount (colCells t (t.header.indexOf c))
    ∧ ((uniques (nonNull (colCells t (t.header.indexOf c)))).length ≤ topN →
        (out.map Prod.snd).sum = nonNullCount (colCells t (t.header.indexOf c))) := by
  by_cases hc : c ∈ t.header
  · rw [columnFrequencies, if_pos hc] at h
    set cells := colCells t (t.header.indexOf c) with hcells
    have hout : out = (rankedPairs cells).take topN := by
      have := Except.ok.inj h
      exact this.symm
    subst hout
    have hlen : (rankedPairs cells).length = (uniques (nonNull cells)).length := by
      rw [← (rankedPairs_fst_perm cells).length_eq, List.length_map]
    constructor
    · calc (((rankedPairs cells).take topN).map Prod.snd).sum
          = (((rankedPairs cells).map Prod.snd).take topN).sum := by
            rw [List.map_take]
        _ ≤ ((rankedPairs cells).map Prod.snd).sum := by
            have := List.sum_take_add_sum_drop ((rankedPairs cells).map Prod.snd) topN
            omega
        _ = nonNullCount cells := rankedPairs_snd_sum cells
    · intro hge
      have : (rankedPairs cells).take topN = rankedPairs cells :=
        List.take_of_length_le (by omega)
      rw [this, rankedPairs_snd_sum cells]
  · rw [columnFrequencies, if_neg hc] at h
    exact Except.noConfusion h

/-- Witness for C4 at the spec's scenario column. -/
theorem frequency_counts_sum_witness :
    columnFrequencies ⟨[strToText "a", strToText "b"],
        [[Cell.int 1, Cell.str (strToText "x")], [Cell.int 2, Cell.str (strToText "y")],
         [Cell.int 1, Cell.str (strToText "z")]]⟩ (strToText "a") 10
      = .ok [(Cell.int 1, 2), (Cell.int 2, 1)]
    ∧ ([(Cell.int 1, 2), (Cell.int 2, 1)].map Prod.snd).sum
      = nonNullCount (colCells ⟨[strToText "a", strToText "b"],
        [[Cell.int 1, Cell.str (strToText "x")], [Cell.int 2, Cell.str (strToText "y")],
         [Cell.int 1, Cell.str (strToText "z")]]⟩
        ((⟨[strToText "a", strToText "b"],
        [[Cell.int 1, Cell.str (strToText "x")], [Cell.int 2, Cell.str (strToText "y")],
         [Cell.int 1, Cell.str (strToText "z")]]⟩ : Table).header.indexOf (strToText "a"))) := by
  refine ⟨by decide, ?_⟩
  exact (frequency_counts_sum ⟨[strToText "a", strToText "b"],
      [[Cell.int 1, Cell.str (strToText "x")], [Cell.int 2, Cell.str (strToText "y")],
       [Cell.int 1, Cell.str (strToText "z")]]⟩ (strToText "a") 10
      [(Cell.int 1, 2), (Cell.int 2, 1)] (by decide)).2 (by decide)

theorem digitsVal_append_single (ds : Text) (d : Nat) :
    digitsVal (ds ++ [d]) = 10 * digitsVal ds + (d - 48) := by
  simp [digitsVal, List.foldl_append]
  omega

theorem renderNatAux_spec (fuel : Nat) : ∀ n, n < fuel →
    digitsVal (renderNatAux fuel n) = n
    ∧ renderNatAux fuel n ≠ []
    ∧ ∀ c ∈ renderNatAux fuel n, isDigitC c = true := by
  induction fuel with
  | zero => intro n hn; omega
  | succ fuel ih =>
    intro n hn
    by_cases h10 : n < 10
    · rw [renderNatAux, if_pos h10]
      refine ⟨by simp [digitsVal], by simp, ?_⟩
      intro c hc
      simp only [List.mem_singleton] at hc
      subst hc
      simp [isDigitC]
      omega
    · rw [renderNatAux, if_neg h10]
      have hdiv : n / 10 < fuel := by omega
      obtain ⟨ihv, ihne, ihd⟩ := ih (n / 10) hdiv
      refine ⟨?_, by simp, ?_⟩
      · rw [digitsVal_append_single, ihv]
        omega
      · intro c hc
        rcases List.mem_append.mp hc with h | h
        · exact ihd c h
        · simp only [List.mem_singleton] at h
          subst h
          simp [isDigitC]
          omega

theorem renderNat_val (n : Nat) : digitsVal (renderNat n) = n :=
  (renderNatAux_spec (n + 1) n (by omega)).1

theorem renderNat_ne_nil (n : Nat) : renderNat n ≠ [] :=
  (renderNatAux_spec (n + 1) n (by omega)).2.1

theorem renderNat_digits (n : Nat) : ∀ c ∈ renderNat n, isDigitC c = true :=
  (renderNatAux_spec (n + 1) n (by omega)).2.2

theorem parseNatText_renderNat (n : Nat) : parseNatText (renderNat n) = some n := by
  rw [parseNatText, if_pos, renderNat_val]
  rw [Bool.and_eq_true, List.all_eq_true]
  exact ⟨by simpa using renderNat_ne_nil n, renderNat_digits n⟩

theorem parseIntText_renderInt (n : Int) : parseIntText (renderInt n) = some n := by
  by_cases hneg : n < 0
  · rw [renderInt, if_pos hneg, parseIntText, if_pos rfl, parseNatText_renderNat,
      Option.map_some']
    simp only [Int.ofNat_eq_natCast]
    congr 1
    omega
  · rw [renderInt, if_neg hneg]
    obtain ⟨d, ds, hds⟩ : ∃ d ds, renderNat n.toNat = d :: ds := by
      cases h : renderNat n.toNat with
      | nil => exact absurd h (renderNat_ne_nil _)
      | cons d ds => exact ⟨d, ds, rfl⟩
    have hd : isDigitC d = true := by
      refine renderNat_digits n.toNat d ?_
      rw [hds]; exact List.mem_cons_self d ds
    have h45 : d ≠ 45 := by simp [isDigitC] at hd; omega
    have h43 : d ≠ 43 := by simp [isDigitC] at hd; omega
    rw [hds, parseIntText, if_neg h45, if_neg h43, ← hds, parseNatText_renderNat,
      Option.map_some']
    simp only [Int.ofNat_eq_natCast]
    congr 1
    omega

theorem dvd_ten_pow_self (d k : Nat) (hd : d ≠ 0) (h : d ∣ 10 ^ k) : d ∣ 10 ^ d := by
  rw [← Nat.factorization_le_iff_dvd hd (pow_ne_zero d (by norm_num))]
  have hk := (Nat.factorization_le_iff_dvd hd (pow_ne_zero k (by norm_num))).mpr h
  rw [Nat.factorization_pow] at hk
  rw [Nat.factorization_pow]
  intro p
  have hkp := hk p
  simp only [Finsupp.smul_apply, smul_eq_mul] at hkp ⊢
  by_cases h10 : (Nat.factorization 10) p = 0
  · rw [h10] at hkp ⊢
    omega
  · by_cases hp : p.Prime
    · have hdvdp : p ^ d.factorization p ∣ d := Nat.ordProj_dvd d p
      have hle : p ^ d.factorization p ≤ d := Nat.le_of_dvd (Nat.pos_of_ne_zero hd) hdvdp
      have h2 : d.factorization p < 2 ^ d.factorization p := Nat.lt_two_pow _
      have h2p : 2 ^ d.factorization p ≤ p ^ d.factorization p :=
        Nat.pow_le_pow_left hp.two_le _
      have : d.factorization p ≤ d := by omega
      calc d.factorization p ≤ d := this
        _ ≤ d * (Nat.factorization 10) p := Nat.le_mul_of_pos_right d (by omega)
    · rw [Nat.factorization_eq_zero_of_non_prime d hp]
      omega

theorem den_dvd_of_isDecimal (q : Rat) (h : IsDecimalRat q) : q.den ∣ 10 ^ q.den := by
  obtain ⟨k, hk⟩ := h
  have hint : q * 10 ^ k = (((q * 10 ^ k).num : Int) : Rat) :=
    ((Rat.den_eq_one_iff _).mp hk).symm
  have hq : q = Rat.divInt (q * 10 ^ k).num ((10 : Int) ^ k) := by
    rw [Rat.divInt_eq_div, ← hint]
    have hne : (((10 : Int) ^ k : Int) : Rat) ≠ 0 := by
      push_cast
      positivity
    rw [eq_div_iff hne]
    push_cast
    ring
  have hdvd : (q.den : Int) ∣ (10 : Int) ^ k := by
    rw [hq]
    exact Rat.den_dvd _ _
  have hnat : q.den ∣ 10 ^ k := by
    have := Int.natAbs_dvd_natAbs.mpr hdvd
    simpa [Int.natAbs_pow] using this
  exact dvd_ten_pow_self q.den k (by have := q.den_pos; omega) hnat

theorem mul_pow_den_one (q : Rat) (h : IsDecimalRat q) : (q * 10 ^ q.den).den = 1 := by
  obtain ⟨c, hc⟩ := den_dvd_of_isDecimal q h
  have hstep : q * 10 ^ q.den = ((q.num * c : Int) : Rat) := by
    calc q * 10 ^ q.den = q * (((q.den * c : Nat) : Nat) : Rat) := by
          rw [← hc]
          push_cast
          ring
      _ = (q * (q.den : Rat)) * (c : Rat) := by
          push_cast
          ring
      _ = ((q.num : Rat)) * (c : Rat) := by rw [Rat.mul_den_eq_num]
      _ = ((q.num * c : Int) : Rat) := by push_cast; ring
  rw [hstep, Rat.den_intCast]

theorem decExp_spec (q : Rat) (h : IsDecimalRat q) : (q * 10 ^ decExp q).den = 1 := by
  unfold decExp
  cases hfind : (List.range (q.den + 1)).find? (fun e => (q * 10 ^ e).den = 1) with
  | none =>
    exfalso
    have hmem := List.find?_eq_none.mp hfind q.den (List.mem_range.mpr (by omega))
    simp only [decide_eq_true_eq] at hmem
    exact hmem (mul_pow_den_one q h)
  | some e =>
    have he := List.find?_some hfind
    simp only [decide_eq_true_eq] at he
    simpa using he

theorem foldl_digits_from (b : Text) : ∀ s : Nat,
    b.foldl (fun a d => a * 10 + (d - 48)) s = s * 10 ^ b.length + digitsVal b := by
  induction b with
  | nil => intro s; simp [digitsVal]
  | cons d b ih =>
    intro s
    show b.foldl _ (s * 10 + (d - 48)) = _
    rw [ih (s * 10 + (d - 48))]
    have hdb : digitsVal (d :: b) = (d - 48) * 10 ^ b.length + digitsVal b := by
      show b.foldl _ (0 * 10 + (d - 48)) = _
      rw [ih (0 * 10 + (d - 48))]
      ring_nf
    rw [hdb]
    simp [List.length_cons]
    ring

theorem digitsVal_append (a b : Text) :
    digitsVal (a ++ b) = digitsVal a * 10 ^ b.length + digitsVal b := by
  show (a ++ b).foldl _ 0 = _
  rw [List.foldl_append]
  exact foldl_digits_from b _

theorem digitsVal_replicate_48 (k : Nat) : digitsVal (List.replicate k 48) = 0 := by
  induction k with
  | zero => rfl
  | succ k ih =>
    show (List.replicate (k + 1) 48).foldl _ 0 = 0
    rw [List.replicate_succ]
    show (List.replicate k 48).foldl _ (0 * 10 + (48 - 48)) = 0
    simpa [digitsVal] using ih

theorem splitPoint_no_point (ds : Text) (h : ∀ c ∈ ds, c ≠ 46) :
    splitPoint ds = (ds, none) := by
  induction ds with
  | nil => rfl
  | cons c cs ih =>
    rw [splitPoint, if_neg (h c (List.mem_cons_self c cs))]
    have := ih (fun x hx => h x (List.mem_cons_of_mem c hx))
    simp [this]

theorem splitPoint_point (a b : Text) (h : ∀ c ∈ a, c ≠ 46) :
    splitPoint (a ++ 46 :: b) = (a, some b) := by
  induction a with
  | nil => simp [splitPoint]
  | cons c cs ih =>
    rw [List.cons_append, splitPoint, if_neg (h c (List.mem_cons_self c cs))]
    have := ih (fun x hx => h x (List.mem_cons_of_mem c hx))
    simp [this]

theorem isDigitC_ne_point (c : Nat) (h : isDigitC c = true) : c ≠ 46 := by
  simp [isDigitC] at h
  omega

theorem renderNonnegRat_parse (q : Rat) (hq : 0 ≤ q) (hd : IsDecimalRat q) :
    parseUnsignedDec (renderNonnegRat q) = some q := by
  have hden1 := decExp_spec q hd
  rw [renderNonnegRat]
  by_cases he : decExp q = 0
  · rw [if_pos he]
    rw [he, pow_zero, mul_one] at hden1
    have hnum : ((q.num : Int) : Rat) = q := (Rat.den_eq_one_iff q).mp hden1
    have hnn : 0 ≤ q.num := Rat.num_nonneg.mpr hq
    have hsp : splitPoint (renderNat q.num.toNat ++ [46, 48])
        = (renderNat q.num.toNat, some [48]) := by
      have : (renderNat q.num.toNat) ++ [46, 48]
          = (renderNat q.num.toNat) ++ 46 :: [48] := rfl
      rw [this, splitPoint_point]
      intro c hc
      exact isDigitC_ne_point c (renderNat_digits _ c hc)
    simp only [parseUnsignedDec, hsp]
    rw [if_pos]
    · have h48 : digitsVal [48] = 0 := by decide
      rw [renderNat_val, h48]
      simp only [List.length_cons, List.length_nil]
      norm_num
      rw [← hnum]
      exact_mod_cast Int.toNat_of_nonneg hnn
    · simp only [Bool.and_eq_true, Bool.or_eq_true, decide_eq_true_eq]
      refine ⟨⟨?_, by decide⟩, Or.inl ?_⟩
      · rw [List.all_eq_true]
        exact renderNat_digits _
      · exact renderNat_ne_nil q.num.toNat
  · rw [if_neg he]
    set e := decExp q with hedef
    set n := (q * 10 ^ e).num.toNat with hndef
    set ds := renderNat n with hdsdef
    set padded := List.replicate (e + 1 - ds.length) 48 ++ ds with hpaddef
    have hdsdig : ∀ c ∈ ds, isDigitC c = true := renderNat_digits n
    have hpaddig : ∀ c ∈ padded, isDigitC c = true := by
      intro c hc
      rcases List.mem_append.mp hc with h | h
      · have := List.eq_of_mem_replicate h
        subst this
        decide
      · exact hdsdig c h
    have hdsne : ds ≠ [] := renderNat_ne_nil n
    have hdslen : 1 ≤ ds.length := by
      cases hds : ds with
      | nil => exact absurd hds hdsne
      | cons a l => simp
    have hplen : e + 1 ≤ padded.length := by
      rw [hpaddef, List.length_append, List.length_replicate]
      omega
    have hiplen : (padded.take (padded.length - e)).length = padded.length - e := by
      rw [List.length_take]
      omega
    have hfplen : (padded.drop (padded.length - e)).length = e := by
      rw [List.length_drop]
      omega
    have hsp : splitPoint (padded.take (padded.length - e)
          ++ 46 :: padded.drop (padded.length - e))
        = (padded.take (padded.length - e), some (padded.drop (padded.length - e))) := by
      rw [splitPoint_point]
      intro c hc
      exact isDigitC_ne_point c (hpaddig c (List.mem_of_mem_take hc))
    simp only [parseUnsignedDec, hsp]
    rw [if_pos]
    · congr 1
      have hval : digitsVal padded = n := by
        rw [hpaddef, digitsVal_append, digitsVal_replicate_48, renderNat_val]
        simp
      have hsplitv : digitsVal (padded.take (padded.length - e)) * 10 ^ e
          + digitsVal (padded.drop (padded.length - e)) = n := by
        have := digitsVal_append (padded.take (padded.length - e))
          (padded.drop (padded.length - e))
        rw [List.take_append_drop] at this
        rw [hfplen] at this
        omega
      have hqnum : ((n : Nat) : Rat) = q * 10 ^ e := by
        have hint : (((q * 10 ^ e).num : Int) : Rat) = q * 10 ^ e :=
          (Rat.den_eq_one_iff _).mp hden1
        have hpos : (0 : Rat) ≤ q * 10 ^ e := by positivity
        have hnn : 0 ≤ (q * 10 ^ e).num := Rat.num_nonneg.mpr hpos
        rw [← hint, hndef]
        exact_mod_cast Int.toNat_of_nonneg hnn
      have hten : ((10 : Rat) ^ e) ≠ 0 := by positivity
      rw [hfplen]
      field_simp
      rw [← hqnum]
      push_cast [← hsplitv]
      ring
    · simp only [Bool.and_eq_true, Bool.or_eq_true, decide_eq_true_eq]
      refine ⟨⟨?_, ?_⟩, Or.inl ?_⟩
      · rw [List.all_eq_true]
        intro c hc
        exact hpaddig c (List.mem_of_mem_take hc)
      · rw [List.all_eq_true]
        intro c hc
        exact hpaddig c (List.mem_of_mem_drop hc)
      · intro hnil
        have := congrArg List.length hnil
        rw [hiplen] at this
        simp at this
        omega

theorem isDecimal_neg (q : Rat) (h : IsDecimalRat q) : IsDecimalRat (-q) := by
  obtain ⟨k, hk⟩ := h
  exact ⟨k, by rw [neg_mul, Rat.neg_den]; exact hk⟩

theorem renderNonnegRat_structure (q : Rat) :
    ∃ a b, renderNonnegRat q = a ++ 46 :: b
      ∧ (∀ c ∈ a, isDigitC c = true) ∧ (∀ c ∈ b, isDigitC c = true) ∧ a ≠ [] := by
  rw [renderNonnegRat]
  by_cases he : decExp q = 0
  · rw [if_pos he]
    refine ⟨renderNat q.num.toNat, [48], rfl, renderNat_digits _, ?_, renderNat_ne_nil _⟩
    intro c hc
    simp only [List.mem_singleton] at hc
    subst hc
    decide
  · rw [if_neg he]
    set e := decExp q
    set ds := renderNat (q * 10 ^ e).num.toNat with hdsdef
    set padded := List.replicate (e + 1 - ds.length) 48 ++ ds with hpaddef
    have hpaddig : ∀ c ∈ padded, isDigitC c = true := by
      intro c hc
      rcases List.mem_append.mp hc with h | h
      · have := List.eq_of_mem_replicate h
        subst this
        decide
      · exact renderNat_digits _ c h
    have hdslen : 1 ≤ ds.length := by
      cases hds : ds with
      | nil => exact absurd hds (renderNat_ne_nil _)
      | cons a l => simp
    have hplen : e + 1 ≤ padded.length := by
      rw [hpaddef, List.length_append, List.length_replicate]
      omega
    refine ⟨padded.take (padded.length - e), padded.drop (padded.length - e), rfl,
      ?_, ?_, ?_⟩
    · intro c hc
      exact hpaddig c (List.mem_of_mem_take hc)
    · intro c hc
      exact hpaddig c (List.mem_of_mem_drop hc)
    · intro hnil
      have := congrArg List.length hnil
      rw [List.length_take] at this
      simp at this
      omega

theorem parseNatText_eq_none (ds : Text) (c : Nat) (hc : c ∈ ds)
    (hnd : isDigitC c = false) : parseNatText ds = none := by
  rw [parseNatText, if_neg]
  intro hcond
  rw [Bool.and_eq_true, List.all_eq_true] at hcond
  have := hcond.2 c hc
  rw [hnd] at this
  exact Bool.noConfusion this

theorem point_mem_renderNonnegRat (q : Rat) : 46 ∈ renderNonnegRat q := by
  obtain ⟨a, b, heq, _⟩ := renderNonnegRat_structure q
  rw [heq]
  exact List.mem_append.mpr (Or.inr (List.mem_cons_self _ _))

theorem parseFloatText_renderRat (q : Rat) (hd : IsDecimalRat q) :
    parseFloatText (renderRat q) = some q := by
  rw [renderRat]
  by_cases hneg : q < 0
  · rw [if_pos hneg, parseFloatText, if_pos rfl,
      renderNonnegRat_parse (-q) (le_of_lt (neg_pos.mpr hneg)) (isDecimal_neg q hd)]
    simp
  · rw [if_neg hneg]
    obtain ⟨a, b, heq, hadig, _, hane⟩ := renderNonnegRat_structure q
    obtain ⟨d, a', hda⟩ : ∃ d a', a = d :: a' := by
      cases ha : a with
      | nil => exact absurd ha hane
      | cons x l => exact ⟨x, l, rfl⟩
    have hd0 : isDigitC d = true := hadig d (by rw [hda]; exact List.mem_cons_self d a')
    have hd0' : 48 ≤ d ∧ d ≤ 57 := by simpa [isDigitC] using hd0
    have h45 : d ≠ 45 := by omega
    have h43 : d ≠ 43 := by omega
    rw [heq, hda, List.cons_append, parseFloatText, if_neg h45, if_neg h43,
      ← List.cons_append, ← hda, ← heq]
    exact renderNonnegRat_parse q (not_lt.mp hneg) hd

theorem parseIntText_renderRat (q : Rat) : parseIntText (renderRat q) = none := by
  rw [renderRat]
  by_cases hneg : q < 0
  · rw [if_pos hneg, parseIntText, if_pos rfl,
      parseNatText_eq_none _ 46 (point_mem_renderNonnegRat (-q)) (by decide)]
    rfl
  · rw [if_neg hneg]
    obtain ⟨a, b, heq, hadig, _, hane⟩ := renderNonnegRat_structure q
    obtain ⟨d, a', hda⟩ : ∃ d a', a = d :: a' := by
      cases ha : a with
      | nil => exact absurd ha hane
      | cons x l => exact ⟨x, l, rfl⟩
    have hd0 : isDigitC d = true := hadig d (by rw [hda]; exact List.mem_cons_self d a')
    have hd0' : 48 ≤ d ∧ d ≤ 57 := by simpa [isDigitC] using hd0
    have h45 : d ≠ 45 := by omega
    have h43 : d ≠ 43 := by omega
    rw [heq, hda, List.cons_append, parseIntText, if_neg h45, if_neg h43]
    have hmem : 46 ∈ d :: (a' ++ 46 :: b) :=
      List.mem_cons_of_mem d (List.mem_append.mpr (Or.inr (List.mem_cons_self _ _)))
    rw [parseNatText_eq_none _ 46 hmem (by decide)]
    rfl

theorem renderInt_chars (n : Int) :
    ∀ c ∈ renderInt n, isDigitC c = true ∨ c = 45 := by
  rw [renderInt]
  by_cases hneg : n < 0
  · rw [if_pos hneg]
    intro c hc
    rcases List.mem_cons.mp hc with h | h
    · exact Or.inr h
    · exact Or.inl (renderNat_digits _ c h)
  · rw [if_neg hneg]
    intro c hc
    exact Or.inl (renderNat_digits _ c hc)

theorem renderRat_chars (q : Rat) :
    ∀ c ∈ renderRat q, isDigitC c = true ∨ c = 45 ∨ c = 46 := by
  have hnn : ∀ p : Rat, ∀ c ∈ renderNonnegRat p, isDigitC c = true ∨ c = 45 ∨ c = 46 := by
    intro p c hc
    obtain ⟨a, b, heq, hadig, hbdig, _⟩ := renderNonnegRat_structure p
    rw [heq] at hc
    rcases List.mem_append.mp hc with h | h
    · exact Or.inl (hadig c h)
    · rcases List.mem_cons.mp h with h | h
      · exact Or.inr (Or.inr h)
      · exact Or.inl (hbdig c h)
  rw [renderRat]
  by_cases hneg : q < 0
  · rw [if_pos hneg]
    intro c hc
    rcases List.mem_cons.mp hc with h | h
    · exact Or.inr (Or.inl h)
    · exact hnn (-q) c h
  · rw [if_neg hneg]
    exact hnn q

theorem renderInt_ne_nil (n : Int) : renderInt n ≠ [] := by
  rw [renderInt]
  by_cases hneg : n < 0
  · rw [if_pos hneg]; simp
  · rw [if_neg hneg]; exact renderNat_ne_nil _

theorem renderRat_ne_nil (q : Rat) : renderRat q ≠ [] := by
  have hnn : ∀ p : Rat, renderNonnegRat p ≠ [] := by
    intro p hnil
    obtain ⟨a, b, heq, _, _, _⟩ := renderNonnegRat_structure p
    rw [heq] at hnil
    exact absurd (congrArg List.length hnil) (by simp)
  rw [renderRat]
  by_cases hneg : q < 0
  · rw [if_pos hneg]; simp
  · rw [if_neg hneg]; exact hnn q

theorem naTokens_not_numeric : ∀ tok ∈ naTokens,
    ¬(tok ≠ [] ∧ ∀ c ∈ tok, isDigitC c = true ∨ c = 45 ∨ c = 46) := by
  decide

theorem toNull_eq_false_of_numeric (f : Text) (hne : f ≠ [])
    (hchars : ∀ c ∈ f, isDigitC c = true ∨ c = 45 ∨ c = 46) : toNull f = false := by
  have hnm : f ∉ naTokens := by
    intro hmem
    exact naTokens_not_numeric f hmem ⟨hne, hchars⟩
  simp [toNull, hnm]

theorem toNull_renderInt (n : Int) : toNull (renderInt n) = false :=
  toNull_eq_false_of_numeric _ (renderInt_ne_nil n)
    (fun c hc => (renderInt_chars n c hc).elim Or.inl (fun h => Or.inr (Or.inl h)))

theorem toNull_renderRat (q : Rat) : toNull (renderRat q) = false :=
  toNull_eq_false_of_numeric _ (renderRat_ne_nil q) (renderRat_chars q)

theorem needsQuote_eq_false_of_numeric (f : Text)
    (hchars : ∀ c ∈ f, isDigitC c = true ∨ c = 45 ∨ c = 46) : needsQuote f = false := by
  rw [needsQuote, List.any_eq_false]
  intro c hc
  rcases hchars c hc with h | h | h
  · simp [isDigitC] at h
    simp [qc, cc, nlc, crc]
    omega
  · subst h; decide
  · subst h; decide

theorem needsQuote_renderInt (n : Int) : needsQuote (renderInt n) = false :=
  needsQuote_eq_false_of_numeric _
    (fun c hc => (renderInt_chars n c hc).elim Or.inl (fun h => Or.inr (Or.inl h)))

theorem needsQuote_renderRat (q : Rat) : needsQuote (renderRat q) = false :=
  needsQuote_eq_false_of_numeric _ (renderRat_chars q)

theorem validText_of_numeric (f : Text)
    (hchars : ∀ c ∈ f, isDigitC c = true ∨ c = 45 ∨ c = 46) : ValidText f := by
  intro c hc
  rcases hchars c hc with h | h | h
  · simp [isDigitC] at h
    exact Or.inl (by omega)
  · subst h; exact Or.inl (by omega)
  · subst h; exact Or.inl (by omega)

theorem validText_renderInt (n : Int) : ValidText (renderInt n) :=
  validText_of_numeric _
    (fun c hc => (renderInt_chars n c hc).elim Or.inl (fun h => Or.inr (Or.inl h)))

theorem validText_renderRat (q : Rat) : ValidText (renderRat q) :=
  validText_of_numeric _ (renderRat_chars q)

theorem parseUnsignedDec_isDecimal (f : Text) (q : Rat)
    (h : parseUnsignedDec f = some q) : IsDecimalRat q := by
  cases hsp : splitPoint f with
  | mk ip rest =>
    cases rest with
    | none =>
      simp only [parseUnsignedDec, hsp, Option.map_eq_some'] at h
      obtain ⟨n, _, hn⟩ := h
      refine ⟨0, ?_⟩
      rw [pow_zero, mul_one, ← hn, natToRat, Rat.den_natCast]
    | some fp =>
      simp only [parseUnsignedDec, hsp] at h
      split at h
      · have hq := Option.some.inj h
        refine ⟨fp.length, ?_⟩
        have hten : ((10 : Rat) ^ fp.length) ≠ 0 := by positivity
        have hstep : q * 10 ^ fp.length
            = ((digitsVal ip * 10 ^ fp.length + digitsVal fp : Nat) : Rat) := by
          rw [← hq]
          push_cast
          field_simp
        rw [hstep, Rat.den_natCast]
      · exact Option.noConfusion h

theorem parseFloatText_isDecimal (f : Text) (q : Rat)
    (h : parseFloatText f = some q) : IsDecimalRat q := by
  cases f with
  | nil => exact Option.noConfusion h
  | cons c ds =>
    rw [parseFloatText] at h
    by_cases h45 : c = 45
    · rw [if_pos h45] at h
      simp only [Option.map_eq_some'] at h
      obtain ⟨p, hp, hq⟩ := h
      have := isDecimal_neg p (parseUnsignedDec_isDecimal ds p hp)
      rwa [hq] at this
    · rw [if_neg h45] at h
      by_cases h43 : c = 43
      · rw [if_pos h43] at h
        exact parseUnsignedDec_isDecimal ds q h
      · rw [if_neg h43] at h
        exact parseUnsignedDec_isDecimal (c :: ds) q h

theorem parseFloat_none_imp_parseInt_none (f : Text)
    (h : parseFloatText f = none) : parseIntText f = none := by
  have hps : ∀ g : Text, parseUnsignedDec g = none → parseNatText g = none := by
    intro g hg
    cases hpn : parseNatText g with
    | none => rfl
    | some n =>
      exfalso
      have hcond : (decide (g ≠ []) && g.all isDigitC) = true := by
        rw [parseNatText] at hpn
        by_cases hc2 : (decide (g ≠ []) && g.all isDigitC) = true
        · exact hc2
        · rw [if_neg hc2] at hpn
          exact Option.noConfusion hpn
      have hsg : splitPoint g = (g, none) := by
        refine splitPoint_no_point g ?_
        intro x hx
        rw [Bool.and_eq_true, List.all_eq_true] at hcond
        exact isDigitC_ne_point x (hcond.2 x hx)
      simp [parseUnsignedDec, hsg, hpn] at hg
  cases f with
  | nil => rfl
  | cons c ds =>
    rw [parseFloatText] at h
    rw [parseIntText]
    by_cases h45 : c = 45
    · rw [if_pos h45] at h ⊢
      cases hud : parseUnsignedDec ds with
      | none => rw [hps ds hud]; rfl
      | some p => rw [hud] at h; exact Option.noConfusion h
    · rw [if_neg h45] at h ⊢
      by_cases h43 : c = 43
      · rw [if_pos h43] at h ⊢
        rw [hps ds h]
        rfl
      · rw [if_neg h43] at h ⊢
        rw [hps (c :: ds) h]
        rfl

set_option maxRecDepth 8192

theorem utf8Step_one (n : Nat) (h : n < 128) (bs : List Nat) :
    utf8Step n bs = some (n, bs) := by
  unfold utf8Step
  rw [if_pos h]

theorem utf8Step_enc2 (n : Nat) (h1 : 128 ≤ n) (h2 : n < 2048) (bs : List Nat) :
    utf8Step (192 + n / 64) ((128 + n % 64) :: bs) = some (n, bs) := by
  have hb : ¬(192 + n / 64 < 128) := by omega
  have hr : (194 ≤ 192 + n / 64 && 192 + n / 64 ≤ 223) = true := by
    simp only [Bool.and_eq_true, decide_eq_true_eq]
    omega
  have hcont : isCont (128 + n % 64) = true := by
    simp only [isCont, Bool.and_eq_true, decide_eq_true_eq]
    omega
  unfold utf8Step
  rw [if_neg hb, hr, if_pos rfl]
  simp only [hcont, if_true]
  congr 2
  omega

theorem utf8Step_enc3 (n : Nat) (h1 : 2048 ≤ n) (h2 : n < 65536) (hv : ValidScalar n)
    (bs : List Nat) :
    utf8Step (224 + n / 4096) ((128 + n / 64 % 64) :: (128 + n % 64) :: bs)
      = some (n, bs) := by
  have hb : ¬(224 + n / 4096 < 128) := by omega
  have hr2 : (194 ≤ 224 + n / 4096 && 224 + n / 4096 ≤ 223) = false := by
    simp only [Bool.and_eq_false_iff, decide_eq_false_iff_not]
    omega
  have hr3 : (224 ≤ 224 + n / 4096 && 224 + n / 4096 ≤ 239) = true := by
    simp only [Bool.and_eq_true, decide_eq_true_eq]
    omega
  have hc1 : isCont (128 + n / 64 % 64) = true := by
    simp only [isCont, Bool.and_eq_true, decide_eq_true_eq]
    omega
  have hc2 : isCont (128 + n % 64) = true := by
    simp only [isCont, Bool.and_eq_true, decide_eq_true_eq]
    omega
  have hval : (224 + n / 4096 - 224) * 4096 + (128 + n / 64 % 64 - 128) * 64
      + (128 + n % 64 - 128) = n := by omega
  unfold utf8Step
  rw [if_neg hb, hr2, if_neg (by simp), hr3, if_pos rfl]
  simp only [hc1, hc2, Bool.and_self, if_true, hval]
  have hcond : (2048 ≤ n && decide (ValidScalar n)) = true := by
    simp only [Bool.and_eq_true, decide_eq_true_eq]
    exact ⟨by omega, hv⟩
  rw [if_pos hcond]

theorem utf8Step_enc4 (n : Nat) (h1 : 65536 ≤ n) (h2 : n < 1114112) (bs : List Nat) :
    utf8Step (240 + n / 262144)
      ((128 + n / 4096 % 64) :: (128 + n / 64 % 64) :: (128 + n % 64) :: bs)
      = some (n, bs) := by
  have hb : ¬(240 + n / 262144 < 128) := by omega
  have hr2 : (194 ≤ 240 + n / 262144 && 240 + n / 262144 ≤ 223) = false := by
    simp only [Bool.and_eq_false_iff, decide_eq_false_iff_not]
    omega
  have hr3 : (224 ≤ 240 + n / 262144 && 240 + n / 262144 ≤ 239) = false := by
    simp only [Bool.and_eq_false_iff, decide_eq_false_iff_not]
    omega
  have hr4 : (240 ≤ 240 + n / 262144 && 240 + n / 262144 ≤ 244) = true := by
    simp only [Bool.and_eq_true, decide_eq_true_eq]
    omega
  have hc1 : isCont (128 + n / 4096 % 64) = true := by
    simp only [isCont, Bool.and_eq_true, decide_eq_true_eq]
    omega
  have hc2 : isCont (128 + n / 64 % 64) = true := by
    simp only [isCont, Bool.and_eq_true, decide_eq_true_eq]
    omega
  have hc3 : isCont (128 + n % 64) = true := by
    simp only [isCont, Bool.and_eq_true, decide_eq_true_eq]
    omega
  have hval : (240 + n / 262144 - 240) * 262144 + (128 + n / 4096 % 64 - 128) * 4096
      + (128 + n / 64 % 64 - 128) * 64 + (128 + n % 64 - 128) = n := by omega
  unfold utf8Step
  rw [if_neg hb, hr2, if_neg (by simp), hr3, if_neg (by simp), hr4, if_pos rfl]
  simp only [hc1, hc2, hc3, Bool.and_self, if_true, hval]
  have hcond : (65536 ≤ n && n < 1114112) = true := by
    simp only [Bool.and_eq_true, decide_eq_true_eq]
    omega
  rw [if_pos hcond]

theorem utf8Encode_cons (n : Nat) (t : Text) :
    utf8Encode (n :: t) = utf8EncodeChar n ++ utf8Encode t := by
  simp [utf8Encode]

theorem utf8DecodeAux_encode (t : Text) : ∀ fuel, ValidText t → t.length ≤ fuel →
    utf8DecodeAux fuel (utf8Encode t) = some t := by
  induction t with
  | nil =>
    intro fuel _ _
    show utf8DecodeAux fuel [] = some []
    cases fuel <;> rfl
  | cons n t ih =>
    intro fuel hv hlen
    obtain ⟨f, rfl⟩ : ∃ f, fuel = f + 1 := ⟨fuel - 1, by simp at hlen; omega⟩
    have hvn : ValidScalar n := hv n (List.mem_cons_self n t)
    have hvt : ValidText t := fun c hc => hv c (List.mem_cons_of_mem n hc)
    have hlent : t.length ≤ f := by simp at hlen; omega
    rw [utf8Encode_cons]
    have hih := ih f hvt hlent
    by_cases c1 : n < 128
    · rw [utf8EncodeChar, if_pos c1, List.cons_append, List.nil_append]
      rw [utf8DecodeAux, utf8Step_one n c1]
      simp only [hih, Option.map_some']
    · by_cases c2 : n < 2048
      · rw [utf8EncodeChar, if_neg c1, if_pos c2]
        show utf8DecodeAux (f + 1) ((192 + n / 64) :: ((128 + n % 64) :: utf8Encode t))
          = some (n :: t)
        rw [utf8DecodeAux, utf8Step_enc2 n (by omega) c2]
        simp only [hih, Option.map_some']
      · by_cases c3 : n < 65536
        · rw [utf8EncodeChar, if_neg c1, if_neg c2, if_pos c3]
          show utf8DecodeAux (f + 1)
            ((224 + n / 4096) :: ((128 + n / 64 % 64) :: (128 + n % 64) :: utf8Encode t))
            = some (n :: t)
          rw [utf8DecodeAux, utf8Step_enc3 n (by omega) c3 hvn]
          simp only [hih, Option.map_some']
        · rw [utf8EncodeChar, if_neg c1, if_neg c2, if_neg c3]
          show utf8DecodeAux (f + 1)
            ((240 + n / 262144) :: ((128 + n / 4096 % 64) :: (128 + n / 64 % 64)
              :: (128 + n % 64) :: utf8Encode t))
            = some (n :: t)
          have hlt : n < 1114112 := by
            rcases hvn with h | h
            · omega
            · omega
          rw [utf8DecodeAux, utf8Step_enc4 n (by omega) hlt]
          simp only [hih, Option.map_some']

theorem utf8EncodeChar_ne_nil (n : Nat) : utf8EncodeChar n ≠ [] := by
  rw [utf8EncodeChar]
  by_cases c1 : n < 128
  · rw [if_pos c1]; simp
  · rw [if_neg c1]
    by_cases c2 : n < 2048
    · rw [if_pos c2]; simp
    · rw [if_neg c2]
      by_cases c3 : n < 65536
      · rw [if_pos c3]; simp
      · rw [if_neg c3]; simp

theorem length_le_utf8Encode (t : Text) : t.length ≤ (utf8Encode t).length := by
  induction t with
  | nil => simp
  | cons n t ih =>
    rw [utf8Encode_cons, List.length_append]
    have h1 : 1 ≤ (utf8EncodeChar n).length := by
      cases h : utf8EncodeChar n with
      | nil => exact absurd h (utf8EncodeChar_ne_nil n)
      | cons a l => simp
    simp only [List.length_cons]
    omega

theorem utf8Decode_encode (t : Text) (hv : ValidText t) :
    utf8Decode (utf8Encode t) = some t :=
  utf8DecodeAux_encode t (utf8Encode t).length hv (length_le_utf8Encode t)

theorem utf8Step_valid (b : Nat) (bs : List Nat) (n : Nat) (rest : List Nat)
    (h : utf8Step b bs = some (n, rest)) : ValidScalar n := by
  unfold utf8Step at h
  by_cases c1 : b < 128
  · rw [if_pos c1] at h
    cases Option.some.inj h
    exact Or.inl (by omega)
  · rw [if_neg c1] at h
    by_cases c2 : (194 ≤ b && b ≤ 223) = true
    · rw [if_pos c2] at h
      simp only [Bool.and_eq_true, decide_eq_true_eq] at c2
      cases bs with
      | nil => exact Option.noConfusion h
      | cons b2 bs' =>
        by_cases hcont : isCont b2 = true
        · simp only [hcont, if_true] at h
          cases Option.some.inj h
          simp only [isCont, Bool.and_eq_true, decide_eq_true_eq] at hcont
          exact Or.inl (by omega)
        · simp [hcont] at h
    · rw [if_neg c2] at h
      by_cases c3 : (224 ≤ b && b ≤ 239) = true
      · rw [if_pos c3] at h
        cases bs with
        | nil => exact Option.noConfusion h
        | cons b2 bs2 =>
          cases bs2 with
          | nil => exact Option.noConfusion h
          | cons b3 bs' =>
            by_cases hcont : (isCont b2 && isCont b3) = true
            · simp only [hcont, if_true] at h
              by_cases hok : (2048 ≤ (b - 224) * 4096 + (b2 - 128) * 64 + (b3 - 128)
                  && decide (ValidScalar ((b - 224) * 4096 + (b2 - 128) * 64 + (b3 - 128))))
                  = true
              · rw [if_pos hok] at h
                cases Option.some.inj h
                simp only [Bool.and_eq_true, decide_eq_true_eq] at hok
                exact hok.2
              · rw [if_neg hok] at h
                exact Option.noConfusion h
            · simp [hcont] at h
      · rw [if_neg c3] at h
        by_cases c4 : (240 ≤ b && b ≤ 244) = true
        · rw [if_pos c4] at h
          cases bs with
          | nil => exact Option.noConfusion h
          | cons b2 bs2 =>
            cases bs2 with
            | nil => exact Option.noConfusion h
            | cons b3 bs3 =>
              cases bs3 with
              | nil => exact Option.noConfusion h
              | cons b4 bs' =>
                by_cases hcont : (isCont b2 && isCont b3 && isCont b4) = true
                · simp only [hcont, if_true] at h
                  by_cases hok : (65536 ≤ (b - 240) * 262144 + (b2 - 128) * 4096
                      + (b3 - 128) * 64 + (b4 - 128)
                      && (b - 240) * 262144 + (b2 - 128) * 4096 + (b3 - 128) * 64
                        + (b4 - 128) < 1114112) = true
                  · rw [if_pos hok] at h
                    cases Option.some.inj h
                    simp only [Bool.and_eq_true, decide_eq_true_eq] at hok
                    exact Or.inr ⟨by omega, by omega⟩
                  · rw [if_neg hok] at h
                    exact Option.noConfusion h
                · simp [hcont] at h
        · rw [if_neg c4] at h
          exact Option.noConfusion h

theorem utf8DecodeAux_valid : ∀ (fuel : Nat) (bs : List Nat) (t : Text),
    utf8DecodeAux fuel bs = some t → ValidText t := by
  intro fuel
  induction fuel with
  | zero =>
    intro bs t h
    cases bs with
    | nil =>
      cases Option.some.inj h
      intro c hc
      exact absurd hc (List.not_mem_nil c)
    | cons b bs' => exact Option.noConfusion h
  | succ f ih =>
    intro bs t h
    cases bs with
    | nil =>
      cases Option.some.inj h
      intro c hc
      exact absurd hc (List.not_mem_nil c)
    | cons b bs' =>
      rw [utf8DecodeAux] at h
      cases hstep : utf8Step b bs' with
      | none => rw [hstep] at h; exact Option.noConfusion h
      | some p =>
        obtain ⟨n, rest⟩ := p
        rw [hstep] at h
        simp only [Option.map_eq_some'] at h
        obtain ⟨t', ht', rfl⟩ := h
        intro c hc
        rcases List.mem_cons.mp hc with hcn | hct
        · subst hcn
          exact utf8Step_valid b bs' c rest hstep
        · exact ih rest t' ht' c hct

theorem utf8Decode_valid (bs : List Nat) (t : Text) (h : utf8Decode bs = some t) :
    ValidText t :=
  utf8DecodeAux_valid bs.length bs t h

theorem scan_nil (m : Mode) (field : Text) (rec : List Text) (acc : List (List Text)) :
    scan m field rec acc []
      = if m = .startF && field.isEmpty && rec.isEmpty then acc
        else acc ++ [rec ++ [field]] := by
  rw [scan]

theorem scan_startF_qc (field : Text) (rec : List Text) (acc : List (List Text)) (cs : Text) :
    scan .startF field rec acc (qc :: cs) = scan .inq [] rec acc cs := by
  rw [scan]
  simp only [if_pos rfl, if_true]

theorem scan_startF_cc (field : Text) (rec : List Text) (acc : List (List Text)) (cs : Text) :
    scan .startF field rec acc (cc :: cs) = scan .startF [] (rec ++ [[]]) acc cs := by
  rw [scan]
  have h1 : cc ≠ qc := by decide
  simp only [if_neg h1, if_pos rfl, if_true]

theorem scan_startF_nlc (field : Text) (rec : List Text) (acc : List (List Text)) (cs : Text) :
    scan .startF field rec acc (nlc :: cs)
      = if rec.isEmpty then scan .startF [] [] acc cs
        else scan .startF [] [] (acc ++ [rec ++ [[]]]) cs := by
  rw [scan]
  have h1 : nlc ≠ qc := by decide
  have h2 : nlc ≠ cc := by decide
  simp only [if_neg h1, if_neg h2, if_pos rfl, if_true]

theorem scan_startF_other (field : Text) (rec : List Text) (acc : List (List Text))
    (c : Nat) (cs : Text) (h1 : c ≠ qc) (h2 : c ≠ cc) (h3 : c ≠ nlc) :
    scan .startF field rec acc (c :: cs) = scan .unq [c] rec acc cs := by
  rw [scan]
  simp only [if_neg h1, if_neg h2, if_neg h3]

theorem scan_unq_cc (field : Text) (rec : List Text) (acc : List (List Text)) (cs : Text) :
    scan .unq field rec acc (cc :: cs) = scan .startF [] (rec ++ [field]) acc cs := by
  rw [scan]
  simp only [if_pos rfl, if_true]

theorem scan_unq_nlc (field : Text) (rec : List Text) (acc : List (List Text)) (cs : Text) :
    scan .unq field rec acc (nlc :: cs)
      = scan .startF [] [] (acc ++ [rec ++ [field]]) cs := by
  rw [scan]
  have h2 : nlc ≠ cc := by decide
  simp only [if_neg h2, if_pos rfl, if_true]

theorem scan_unq_other (field : Text) (rec : List Text) (acc : List (List Text))
    (c : Nat) (cs : Text) (h2 : c ≠ cc) (h3 : c ≠ nlc) :
    scan .unq field rec acc (c :: cs) = scan .unq (field ++ [c]) rec acc cs := by
  rw [scan]
  simp only [if_neg h2, if_neg h3]

theorem scan_inq_qc (field : Text) (rec : List Text) (acc : List (List Text)) (cs : Text) :
    scan .inq field rec acc (qc :: cs) = scan .postq field rec acc cs := by
  rw [scan]
  simp only [if_pos rfl, if_true]

theorem scan_inq_other (field : Text) (rec : List Text) (acc : List (List Text))
    (c : Nat) (cs : Text) (h1 : c ≠ qc) :
    scan .inq field rec acc (c :: cs) = scan .inq (field ++ [c]) rec acc cs := by
  rw [scan]
  simp only [if_neg h1]

theorem scan_postq_qc (field : Text) (rec : List Text) (acc : List (List Text)) (cs : Text) :
    scan .postq field rec acc (qc :: cs) = scan .inq (field ++ [qc]) rec acc cs := by
  rw [scan]
  simp only [if_pos rfl, if_true]

theorem scan_postq_cc (field : Text) (rec : List Text) (acc : List (List Text)) (cs : Text) :
    scan .postq field rec acc (cc :: cs) = scan .startF [] (rec ++ [field]) acc cs := by
  rw [scan]
  have h1 : cc ≠ qc := by decide
  simp only [if_neg h1, if_pos rfl, if_true]

theorem scan_postq_nlc (field : Text) (rec : List Text) (acc : List (List Text)) (cs : Text) :
    scan .postq field rec acc (nlc :: cs)
      = scan .startF [] [] (acc ++ [rec ++ [field]]) cs := by
  rw [scan]
  have h1 : nlc ≠ qc := by decide
  have h2 : nlc ≠ cc := by decide
  simp only [if_neg h1, if_neg h2, if_pos rfl, if_true]

theorem scan_unq_run (g : Text) : ∀ (field : Text) (rec : List Text)
    (acc : List (List Text)) (z : Text), (∀ c ∈ g, c ≠ cc ∧ c ≠ nlc) →
    scan .unq field rec acc (g ++ z) = scan .unq (field ++ g) rec acc z := by
  induction g with
  | nil => intro field rec acc z _; simp
  | cons c g ih =>
    intro field rec acc z h
    have hc := h c (List.mem_cons_self c g)
    rw [List.cons_append, scan_unq_other field rec acc c _ hc.1 hc.2]
    rw [ih (field ++ [c]) rec acc z (fun x hx => h x (List.mem_cons_of_mem c hx))]
    simp

theorem scan_inq_run (g : Text) : ∀ (field : Text) (rec : List Text)
    (acc : List (List Text)) (z : Text),
    scan .inq field rec acc (escQuotes g ++ qc :: z) = scan .postq (field ++ g) rec acc z := by
  induction g with
  | nil =>
    intro field rec acc z
    show scan .inq field rec acc (qc :: z) = _
    rw [scan_inq_qc]
    simp
  | cons c g ih =>
    intro field rec acc z
    by_cases hc : c = qc
    · subst hc
      have hesc : escQuotes (qc :: g) = qc :: qc :: escQuotes g := by
        simp [escQuotes]
      rw [hesc, List.cons_append, List.cons_append, scan_inq_qc, scan_postq_qc, ih]
      simp
    · have hesc : escQuotes (c :: g) = c :: escQuotes g := by
        simp [escQuotes, hc]
      rw [hesc, List.cons_append, scan_inq_other field rec acc c _ hc, ih]
      simp

theorem needsQuote_false_chars (f : Text) (h : needsQuote f = false) :
    ∀ c ∈ f, c ≠ cc ∧ c ≠ qc ∧ c ≠ nlc := by
  intro c hc
  rw [needsQuote, List.any_eq_false] at h
  have := h c hc
  simp only [Bool.or_eq_true, decide_eq_true_eq, not_or] at this
  tauto

theorem scan_field_cc (f : Text) (rec : List Text) (acc : List (List Text)) (z : Text) :
    scan .startF [] rec acc (renderField f ++ cc :: z)
      = scan .startF [] (rec ++ [f]) acc z := by
  by_cases hq : needsQuote f = true
  · rw [renderField, if_pos hq]
    rw [List.cons_append, List.cons_append, scan_startF_qc, List.append_assoc,
      List.singleton_append]
    rw [scan_inq_run f [] rec acc (cc :: z), List.nil_append, scan_postq_cc]
  · rw [renderField, if_neg hq]
    rw [Bool.not_eq_true] at hq
    have hch := needsQuote_false_chars f hq
    cases hf : f with
    | nil =>
      show scan .startF [] rec acc (cc :: z) = _
      rw [scan_startF_cc]
    | cons c g =>
      have hc := hch c (by rw [hf]; exact List.mem_cons_self c g)
      rw [List.cons_append,
        scan_startF_other [] rec acc c _ hc.2.1 hc.1 hc.2.2,
        scan_unq_run g [c] rec acc (cc :: z)
          (fun x hx => by
            have := hch x (by rw [hf]; exact List.mem_cons_of_mem c hx)
            exact ⟨this.1, this.2.2⟩),
        scan_unq_cc]
      rfl

theorem scan_field_nl (f : Text) (rec : List Text) (acc : List (List Text)) (z : Text)
    (hnb : rec ≠ [] ∨ f ≠ []) :
    scan .startF [] rec acc (renderField f ++ nlc :: z)
      = scan .startF [] [] (acc ++ [rec ++ [f]]) z := by
  by_cases hq : needsQuote f = true
  · rw [renderField, if_pos hq]
    rw [List.cons_append, List.cons_append, scan_startF_qc, List.append_assoc,
      List.singleton_append]
    rw [scan_inq_run f [] rec acc (nlc :: z), List.nil_append, scan_postq_nlc]
  · rw [renderField, if_neg hq]
    rw [Bool.not_eq_true] at hq
    have hch := needsQuote_false_chars f hq
    cases hf : f with
    | nil =>
      show scan .startF [] rec acc (nlc :: z) = _
      rw [scan_startF_nlc]
      have hrec : rec ≠ [] := by
        rcases hnb with h | h
        · exact h
        · rw [hf] at h; exact absurd rfl h
      rw [if_neg (by simpa using hrec)]
    | cons c g =>
      have hc := hch c (by rw [hf]; exact List.mem_cons_self c g)
      rw [List.cons_append,
        scan_startF_other [] rec acc c _ hc.2.1 hc.1 hc.2.2,
        scan_unq_run g [c] rec acc (nlc :: z)
          (fun x hx => by
            have := hch x (by rw [hf]; exact List.mem_cons_of_mem c hx)
            exact ⟨this.1, this.2.2⟩),
        scan_unq_nlc]
      rfl

theorem scan_record (fs : List Text) : ∀ (f : Text) (rec : List Text)
    (acc : List (List Text)) (z : Text), (rec ≠ [] ∨ f ≠ [] ∨ fs ≠ []) →
    scan .startF [] rec acc
        (renderField f ++ (fs.map (fun g => cc :: renderField g)).flatten ++ nlc :: z)
      = scan .startF [] [] (acc ++ [rec ++ f :: fs]) z := by
  induction fs with
  | nil =>
    intro f rec acc z h
    have hnb : rec ≠ [] ∨ f ≠ [] := by
      rcases h with h | h | h
      · exact Or.inl h
      · exact Or.inr h
      · exact absurd rfl h
    simp only [List.map_nil, List.flatten_nil, List.append_nil]
    rw [scan_field_nl f rec acc z hnb]
  | cons g fs ih =>
    intro f rec acc z _
    simp only [List.map_cons, List.flatten_cons]
    have hassoc : renderField f ++ ((cc :: renderField g)
          ++ (fs.map (fun g => cc :: renderField g)).flatten) ++ nlc :: z
        = renderField f ++ cc
          :: (renderField g ++ (fs.map (fun g => cc :: renderField g)).flatten ++ nlc :: z) := by
      simp
    rw [hassoc, scan_field_cc f rec acc _,
      ih g (rec ++ [f]) acc z (Or.inl (by simp))]
    simp

theorem scan_renderDoc (rs : List (List Text)) : ∀ acc : List (List Text),
    (∀ r ∈ rs, r ≠ [] ∧ r ≠ [[]]) →
    scan .startF [] [] acc (renderDoc rs) = acc ++ rs := by
  induction rs with
  | nil =>
    intro acc _
    show scan .startF [] [] acc [] = _
    rw [scan_nil]
    simp
  | cons r rs ih =>
    intro acc h
    obtain ⟨hne, hnb⟩ := h r (List.mem_cons_self r rs)
    obtain ⟨f, fs, rfl⟩ : ∃ f fs, r = f :: fs := by
      cases hr : r with
      | nil => exact absurd hr hne
      | cons f fs => exact ⟨f, fs, rfl⟩
    have hassoc : renderDoc ((f :: fs) :: rs)
        = renderField f ++ (fs.map (fun g => cc :: renderField g)).flatten
          ++ nlc :: renderDoc rs := by
      simp only [renderDoc, List.map_cons, List.flatten_cons, renderRecord]
      simp
    rw [hassoc]
    have hside : ([] : List Text) ≠ [] ∨ f ≠ [] ∨ fs ≠ [] := by
      by_cases hfs : fs = []
      · subst hfs
        refine Or.inr (Or.inl ?_)
        intro hf
        exact hnb (by rw [hf])
      · exact Or.inr (Or.inr hfs)
    rw [scan_record fs f [] acc (renderDoc rs) hside]
    rw [ih (acc ++ [[] ++ f :: fs]) (fun x hx => h x (List.mem_cons_of_mem _ hx))]
    simp

theorem records_renderDoc (rs : List (List Text))
    (h : ∀ r ∈ rs, r ≠ [] ∧ r ≠ [[]]) : records (renderDoc rs) = rs := by
  rw [records, scan_renderDoc rs [] h]
  simp

theorem push_record_ne_nil (acc : List (List Text)) (rec : List Text) (x : Text)
    (hacc : ∀ r ∈ acc, r ≠ []) : ∀ r ∈ acc ++ [rec ++ [x]], r ≠ [] := by
  intro r hr
  rcases List.mem_append.mp hr with h | h
  · exact hacc r h
  · rcases List.mem_singleton.mp h with rfl
    simp

theorem scan_records_ne_nil : ∀ (text : Text) (m : Mode) (field : Text)
    (rec : List Text) (acc : List (List Text)),
    (∀ r ∈ acc, r ≠ []) → ∀ r ∈ scan m field rec acc text, r ≠ [] := by
  intro text
  induction text with
  | nil =>
    intro m field rec acc hacc r hr
    rw [scan_nil] at hr
    split at hr
    · exact hacc r hr
    · exact push_record_ne_nil acc rec field hacc r hr
  | cons c cs ih =>
    intro m field rec acc hacc r hr
    cases m with
    | startF =>
      by_cases h1 : c = qc
      · subst h1; rw [scan_startF_qc] at hr; exact ih _ _ _ _ hacc r hr
      · by_cases h2 : c = cc
        · subst h2; rw [scan_startF_cc] at hr; exact ih _ _ _ _ hacc r hr
        · by_cases h3 : c = nlc
          · subst h3
            rw [scan_startF_nlc] at hr
            split at hr
            · exact ih _ _ _ _ hacc r hr
            · exact ih _ _ _ _ (push_record_ne_nil acc rec [] hacc) r hr
          · rw [scan_startF_other _ _ _ _ _ h1 h2 h3] at hr
            exact ih _ _ _ _ hacc r hr
    | unq =>
      by_cases h2 : c = cc
      · subst h2; rw [scan_unq_cc] at hr; exact ih _ _ _ _ hacc r hr
      · by_cases h3 : c = nlc
        · subst h3
          rw [scan_unq_nlc] at hr
          exact ih _ _ _ _ (push_record_ne_nil acc rec field hacc) r hr
        · rw [scan_unq_other _ _ _ _ _ h2 h3] at hr
          exact ih _ _ _ _ hacc r hr
    | inq =>
      by_cases h1 : c = qc
      · subst h1; rw [scan_inq_qc] at hr; exact ih _ _ _ _ hacc r hr
      · rw [scan_inq_other _ _ _ _ _ h1] at hr
        exact ih _ _ _ _ hacc r hr
    | postq =>
      by_cases h1 : c = qc
      · subst h1; rw [scan_postq_qc] at hr; exact ih _ _ _ _ hacc r hr
      · by_cases h2 : c = cc
        · subst h2; rw [scan_postq_cc] at hr; exact ih _ _ _ _ hacc r hr
        · by_cases h3 : c = nlc
          · subst h3
            rw [scan_postq_nlc] at hr
            exact ih _ _ _ _ (push_record_ne_nil acc rec field hacc) r hr
          · rw [scan] at hr
            simp only [if_neg h1, if_neg h2, if_neg h3] at hr
            exact ih _ _ _ _ hacc r hr

theorem records_ne_nil (text : Text) : ∀ r ∈ records text, r ≠ [] :=
  scan_records_ne_nil text .startF [] [] [] (fun r hr => absurd hr (List.not_mem_nil r))

theorem push_record_chars (P : Nat → Prop) (acc : List (List Text)) (rec : List Text)
    (x : Text) (hacc : ∀ r ∈ acc, ∀ f ∈ r, ∀ c ∈ f, P c)
    (hrec : ∀ f ∈ rec, ∀ c ∈ f, P c) (hx : ∀ c ∈ x, P c) :
    ∀ r ∈ acc ++ [rec ++ [x]], ∀ f ∈ r, ∀ c ∈ f, P c := by
  intro r hr f hf c hc
  rcases List.mem_append.mp hr with h | h
  · exact hacc r h f hf c hc
  · rcases List.mem_singleton.mp h with rfl
    rcases List.mem_append.mp hf with h2 | h2
    · exact hrec f h2 c hc
    · rcases List.mem_singleton.mp h2 with rfl
      exact hx c hc

theorem snoc_chars (P : Nat → Prop) (field : Text) (c0 : Nat)
    (hfield : ∀ c ∈ field, P c) (hc0 : P c0) : ∀ c ∈ field ++ [c0], P c := by
  intro c hc
  rcases List.mem_append.mp hc with h | h
  · exact hfield c h
  · rcases List.mem_singleton.mp h with rfl
    exact hc0

theorem scan_chars (P : Nat → Prop) (hq : P qc) : ∀ (text : Text) (m : Mode)
    (field : Text) (rec : List Text) (acc : List (List Text)),
    (∀ c ∈ text, P c) → (∀ c ∈ field, P c) → (∀ f ∈ rec, ∀ c ∈ f, P c) →
    (∀ r ∈ acc, ∀ f ∈ r, ∀ c ∈ f, P c) →
    ∀ r ∈ scan m field rec acc text, ∀ f ∈ r, ∀ c ∈ f, P c := by
  intro text
  induction text with
  | nil =>
    intro m field rec acc _ hfield hrec hacc r hr
    rw [scan_nil] at hr
    split at hr
    · exact hacc r hr
    · exact push_record_chars P acc rec field hacc hrec hfield r hr
  | cons c0 cs ih =>
    intro m field rec acc htext hfield hrec hacc r hr
    have hc0 : P c0 := htext c0 (List.mem_cons_self c0 cs)
    have htext' : ∀ c ∈ cs, P c := fun c hc => htext c (List.mem_cons_of_mem c0 hc)
    have hnil : ∀ c ∈ ([] : Text), P c := fun c hc => absurd hc (List.not_mem_nil c)
    have hrecnil : ∀ f ∈ ([] : List Text), ∀ c ∈ f, P c :=
      fun f hf => absurd hf (List.not_mem_nil f)
    have hrecsnoc : ∀ x : Text, (∀ c ∈ x, P c) → ∀ f ∈ rec ++ [x], ∀ c ∈ f, P c := by
      intro x hx f hf
      rcases List.mem_append.mp hf with h | h
      · exact hrec f h
      · rcases List.mem_singleton.mp h with rfl
        exact hx
    cases m with
    | startF =>
      by_cases h1 : c0 = qc
      · subst h1; rw [scan_startF_qc] at hr
        exact ih _ _ _ _ htext' hnil hrec hacc r hr
      · by_cases h2 : c0 = cc
        · subst h2; rw [scan_startF_cc] at hr
          exact ih _ _ _ _ htext' hnil (hrecsnoc [] hnil) hacc r hr
        · by_cases h3 : c0 = nlc
          · subst h3
            rw [scan_startF_nlc] at hr
            split at hr
            · exact ih _ _ _ _ htext' hnil hrecnil hacc r hr
            · exact ih _ _ _ _ htext' hnil hrecnil
                (push_record_chars P acc rec [] hacc hrec hnil) r hr
          · rw [scan_startF_other _ _ _ _ _ h1 h2 h3] at hr
            exact ih _ _ _ _ htext' (snoc_chars P [] c0 hnil hc0) hrec hacc r hr
    | unq =>
      by_cases h2 : c0 = cc
      · subst h2; rw [scan_unq_cc] at hr
        exact ih _ _ _ _ htext' hnil (hrecsnoc field hfield) hacc r hr
      · by_cases h3 : c0 = nlc
        · subst h3
          rw [scan_unq_nlc] at hr
          exact ih _ _ _ _ htext' hnil hrecnil
            (push_record_chars P acc rec field hacc hrec hfield) r hr
        · rw [scan_unq_other _ _ _ _ _ h2 h3] at hr
          exact ih _ _ _ _ htext' (snoc_chars P field c0 hfield hc0) hrec hacc r hr
    | inq =>
      by_cases h1 : c0 = qc
      · subst h1; rw [scan_inq_qc] at hr
        exact ih _ _ _ _ htext' hfield hrec hacc r hr
      · rw [scan_inq_other _ _ _ _ _ h1] at hr
        exact ih _ _ _ _ htext' (snoc_chars P field c0 hfield hc0) hrec hacc r hr
    | postq =>
      by_cases h1 : c0 = qc
      · subst h1; rw [scan_postq_qc] at hr
        exact ih _ _ _ _ htext' (snoc_chars P field qc hfield hq) hrec hacc r hr
      · by_cases h2 : c0 = cc
        · subst h2; rw [scan_postq_cc] at hr
          exact ih _ _ _ _ htext' hnil (hrecsnoc field hfield) hacc r hr
        · by_cases h3 : c0 = nlc
          · subst h3
            rw [scan_postq_nlc] at hr
            exact ih _ _ _ _ htext' hnil hrecnil
              (push_record_chars P acc rec field hacc hrec hfield) r hr
          · rw [scan] at hr
            simp only [if_neg h1, if_neg h2, if_neg h3] at hr
            exact ih _ _ _ _ htext' (snoc_chars P field c0 hfield hc0) hrec hacc r hr

theorem records_chars (text : Text) (P : Nat → Prop) (hq : P qc)
    (htext : ∀ c ∈ text, P c) :
    ∀ r ∈ records text, ∀ f ∈ r, ∀ c ∈ f, P c :=
  scan_chars P hq text .startF [] [] []
    htext (fun c hc => absurd hc (List.not_mem_nil c))
    (fun f hf => absurd hf (List.not_mem_nil f))
    (fun r hr => absurd hr (List.not_mem_nil r))

theorem fixHeaderAux_length : ∀ (i : Nat) (ns : List Text),
    (fixHeaderAux i ns).length = ns.length := by
  intro i ns
  induction ns generalizing i with
  | nil => rfl
  | cons n ns ih => simp [fixHeaderAux, ih]

theorem fixHeaderAux_id : ∀ (i : Nat) (ns : List Text), (∀ n ∈ ns, n ≠ []) →
    fixHeaderAux i ns = ns := by
  intro i ns
  induction ns generalizing i with
  | nil => intro _; rfl
  | cons n ns ih =>
    intro h
    rw [fixHeaderAux, if_neg (h n (List.mem_cons_self n ns)),
      ih (i + 1) (fun x hx => h x (List.mem_cons_of_mem n hx))]

theorem unnamedText_ne_nil (i : Nat) : unnamedText i ≠ [] := by
  rw [unnamedText]
  intro h
  have := congrArg List.length h
  simp [strToText] at this

theorem validText_unnamedText (i : Nat) : ValidText (unnamedText i) := by
  intro c hc
  rcases List.mem_append.mp hc with h | h
  · have : ∀ c ∈ strToText "Unnamed: ", ValidScalar c := by decide
    exact this c h
  · have := renderNat_digits i c h
    simp [isDigitC] at this
    exact Or.inl (by omega)

theorem fixHeaderAux_ne_nil : ∀ (i : Nat) (ns : List Text),
    ∀ n ∈ fixHeaderAux i ns, n ≠ [] ∨ n ∈ ns := by
  intro i ns
  induction ns generalizing i with
  | nil => intro n hn; exact absurd hn (List.not_mem_nil n)
  | cons x ns ih =>
    intro n hn
    rw [fixHeaderAux] at hn
    rcases List.mem_cons.mp hn with h | h
    · by_cases hx : x = []
      · rw [if_pos hx] at h
        exact Or.inl (h ▸ unnamedText_ne_nil i)
      · rw [if_neg hx] at h
        exact Or.inr (h ▸ List.mem_cons_self x ns)
    · rcases ih (i + 1) n h with h2 | h2
      · exact Or.inl h2
      · exact Or.inr (List.mem_cons_of_mem x h2)

theorem fixHeaderAux_props (i : Nat) (ns : List Text) (hval : ∀ n ∈ ns, ValidText n) :
    ∀ n ∈ fixHeaderAux i ns, n ≠ [] ∧ ValidText n := by
  induction ns generalizing i with
  | nil => intro n hn; exact absurd hn (List.not_mem_nil n)
  | cons x ns ih =>
    intro n hn
    rw [fixHeaderAux] at hn
    rcases List.mem_cons.mp hn with h | h
    · by_cases hx : x = []
      · rw [if_pos hx] at h
        subst h
        exact ⟨unnamedText_ne_nil i, validText_unnamedText i⟩
      · rw [if_neg hx] at h
        subst h
        exact ⟨hx, hval n (List.mem_cons_self n ns)⟩
    · exact ih (i + 1) (fun x hx => hval x (List.mem_cons_of_mem _ hx)) n h

theorem padRow_length (n : Nat) (r : List Text) (h : r.length ≤ n) :
    (padRow n r).length = n := by
  rw [padRow, List.length_append, List.length_replicate]
  omega

theorem getD_zipWith {α β γ : Type} (f : α → β → γ) (l1 : List α) (l2 : List β)
    (j : Nat) (d1 : α) (d2 : β) (dg : γ) (h1 : j < l1.length) (h2 : j < l2.length) :
    (List.zipWith f l1 l2).getD j dg = f (l1.getD j d1) (l2.getD j d2) := by
  have hlen : j < (List.zipWith f l1 l2).length := by
    rw [List.length_zipWith]
    omega
  rw [List.getD_eq_getElem?_getD, List.getElem?_eq_getElem hlen,
    List.getD_eq_getElem?_getD, List.getElem?_eq_getElem h1,
    List.getD_eq_getElem?_getD, List.getElem?_eq_getElem h2]
  simp [List.getElem_zipWith]

theorem getD_range_map {γ : Type} (n : Nat) (f : Nat → γ) (j : Nat) (d : γ)
    (h : j < n) : (((List.range n).map f).getD j d) = f j := by
  simp [List.getD_eq_getElem?_getD, List.getElem?_map, List.getElem?_range, h]

theorem getD_map_getD {α β : Type} (g : α → β) (r : List α) (j : Nat) (d1 : α)
    (h : j < r.length) : (r.map g).getD j (g d1) = g (r.getD j d1) := by
  rw [List.getD_eq_getElem?_getD, List.getElem?_map,
    List.getD_eq_getElem?_getD, List.getElem?_eq_getElem h]
  simp

theorem convertField_toNull (τ : ColType) (f : Text) (h : toNull f = true) :
    convertField τ f = Cell.null := by
  unfold convertField
  rw [if_pos h]

theorem convertField_null (τ : ColType) : convertField τ [] = Cell.null :=
  convertField_toNull τ [] (by decide)

theorem convertField_int (f : Text) (n : Int) (h : toNull f = false)
    (hn : parseIntText f = some n) : convertField ColType.int f = Cell.int n := by
  unfold convertField
  rw [if_neg (by rw [h]; exact Bool.noConfusion), hn]

theorem convertField_float (f : Text) (q : Rat) (h : toNull f = false)
    (hq : parseFloatText f = some q) : convertField ColType.float f = Cell.float q := by
  unfold convertField
  rw [if_neg (by rw [h]; exact Bool.noConfusion), hq]

theorem convertField_text (f : Text) (h : toNull f = false) :
    convertField ColType.text f = Cell.str f := by
  unfold convertField
  rw [if_neg (by rw [h]; exact Bool.noConfusion)]

theorem mkTable_ncols (header : List Text) (dataRecs : List (List Text)) :
    (mkTable header dataRecs).header.length = header.length := by
  rw [mkTable]
  exact fixHeaderAux_length 0 header

theorem mkTable_wf (header : List Text) (dataRecs : List (List Text))
    (hlen : ∀ r ∈ dataRecs, r.length ≤ header.length) : (mkTable header dataRecs).wf := by
  intro r hr
  rw [mkTable_ncols]
  rw [mkTable] at hr
  simp only [List.mem_map] at hr
  obtain ⟨pr, hpr, rfl⟩ := hr
  obtain ⟨r0, hr0, rfl⟩ := hpr
  rw [List.length_zipWith, List.length_map, List.length_range,
    padRow_length _ _ (hlen r0 hr0)]
  omega

theorem colCells_mkTable (header : List Text) (dataRecs : List (List Text)) (j : Nat)
    (hj : j < header.length) (hlen : ∀ r ∈ dataRecs, r.length ≤ header.length) :
    colCells (mkTable header dataRecs) j
      = (colFields (dataRecs.map (padRow header.length)) j).map
          (convertField (inferColType (colFields (dataRecs.map (padRow header.length)) j))) := by
  rw [mkTable, colCells, colFields]
  simp only [List.map_map]
  refine List.map_congr_left ?_
  intro r0 hr0
  simp only [Function.comp]
  have hprlen : (padRow header.length r0).length = header.length :=
    padRow_length _ _ (hlen r0 hr0)
  rw [getD_zipWith convertField _ _ j ColType.int [] Cell.null
    (by rw [List.length_map, List.length_range]; omega) (by omega)]
  rw [getD_range_map _ _ j _ hj, colFields, List.map_map]

theorem convertField_colOK (fields : List Text) (hvalid : ∀ f ∈ fields, ValidText f) :
    ColOK (fields.map (convertField (inferColType fields))) := by
  rw [inferColType]
  by_cases hint : fields.all (fun f => toNull f || (parseIntText f).isSome) = true
  · rw [if_pos hint]
    refine Or.inl ?_
    intro cell hcell
    obtain ⟨f, hf, rfl⟩ := List.mem_map.mp hcell
    by_cases hnull : toNull f = true
    · exact Or.inl (convertField_toNull _ _ hnull)
    · have hnull' : toNull f = false := by
        rw [← Bool.not_eq_true]
        exact hnull
      rw [List.all_eq_true] at hint
      have := hint f hf
      rw [Bool.or_eq_true, hnull'] at this
      rcases this with h | h
      · exact Bool.noConfusion h
      · obtain ⟨n, hn⟩ := Option.isSome_iff_exists.mp h
        exact Or.inr ⟨n, convertField_int f n hnull' hn⟩
  · rw [if_neg hint]
    by_cases hfloat : fields.all (fun f => toNull f || (parseFloatText f).isSome) = true
    · rw [if_pos hfloat]
      refine Or.inr (Or.inl ⟨?_, ?_⟩)
      · intro cell hcell
        obtain ⟨f, hf, rfl⟩ := List.mem_map.mp hcell
        by_cases hnull : toNull f = true
        · exact Or.inl (convertField_toNull _ _ hnull)
        · have hnull' : toNull f = false := by
            rw [← Bool.not_eq_true]
            exact hnull
          rw [List.all_eq_true] at hfloat
          have := hfloat f hf
          rw [Bool.or_eq_true, hnull'] at this
          rcases this with h | h
          · exact Bool.noConfusion h
          · obtain ⟨q, hq⟩ := Option.isSome_iff_exists.mp h
            exact Or.inr ⟨q, convertField_float f q hnull' hq,
              parseFloatText_isDecimal f q hq⟩
      · rw [List.all_eq_true] at hint
        push_neg at hint
        obtain ⟨f, hf, hnot⟩ := hint
        have hnot2 : (toNull f || (parseIntText f).isSome) = false := by
          rw [← Bool.not_eq_true]
          exact hnot
        rw [Bool.or_eq_false_iff] at hnot2
        have hnull : toNull f = false := hnot2.1
        rw [List.all_eq_true] at hfloat
        have := hfloat f hf
        rw [Bool.or_eq_true, hnull] at this
        rcases this with h | h
        · exact Bool.noConfusion h
        · obtain ⟨q, hq⟩ := Option.isSome_iff_exists.mp h
          exact ⟨convertField (ColType.float) f, List.mem_map_of_mem _ hf, q,
            convertField_float f q hnull hq⟩
    · rw [if_neg hfloat]
      refine Or.inr (Or.inr ⟨?_, ?_⟩)
      · intro cell hcell
        obtain ⟨f, hf, rfl⟩ := List.mem_map.mp hcell
        by_cases hnull : toNull f = true
        · exact Or.inl (convertField_toNull _ _ hnull)
        · have hnull' : toNull f = false := by
            rw [← Bool.not_eq_true]
            exact hnull
          exact Or.inr ⟨f, convertField_text f hnull', hnull', hvalid f hf⟩
      · rw [List.all_eq_true] at hfloat
        push_neg at hfloat
        obtain ⟨f, hf, hnot⟩ := hfloat
        have hnot2 : (toNull f || (parseFloatText f).isSome) = false := by
          rw [← Bool.not_eq_true]
          exact hnot
        rw [Bool.or_eq_false_iff] at hnot2
        have hnull : toNull f = false := hnot2.1
        have hpf : parseFloatText f = none := by
          rcases hopt : parseFloatText f with _ | q
          · rfl
          · rw [hopt] at hnot2
            exact absurd hnot2.2 (by simp)
        exact ⟨convertField ColType.text f, List.mem_map_of_mem _ hf, f,
          convertField_text f hnull, hpf⟩

theorem getD_mem_or_default {α : Type} (r : List α) (j : Nat) (d : α) :
    r.getD j d ∈ r ∨ r.getD j d = d := by
  by_cases h : j < r.length
  · rw [List.getD_eq_getElem r d h]
    exact Or.inl (List.getElem_mem h)
  · rw [List.getD_eq_default r d (by omega)]
    exact Or.inr rfl

theorem padRow_fields_valid (n : Nat) (r : List Text) (hval : ∀ f ∈ r, ValidText f) :
    ∀ f ∈ padRow n r, ValidText f := by
  intro f hf
  rcases List.mem_append.mp hf with h | h
  · exact hval f h
  · rw [List.eq_of_mem_replicate h]
    intro c hc
    exact absurd hc (List.not_mem_nil c)

theorem colFields_valid (rs : List (List Text)) (j : Nat)
    (hval : ∀ r ∈ rs, ∀ f ∈ r, ValidText f) : ∀ f ∈ colFields rs j, ValidText f := by
  intro f hf
  obtain ⟨r, hr, rfl⟩ := List.mem_map.mp hf
  rcases getD_mem_or_default r j [] with h | h
  · exact hval r hr _ h
  · rw [h]
    intro c hc
    exact absurd hc (List.not_mem_nil c)

theorem loadText_inv (text : Text) (t : Table) (hval : ValidText text)
    (h : loadText text = .ok t) : LoadedInv t := by
  cases hrec : records text with
  | nil =>
    simp only [loadText, hrec] at h
    exact Except.noConfusion h
  | cons header dataRecs =>
    have hfv : ∀ r ∈ records text, ∀ f ∈ r, ∀ c ∈ f, ValidScalar c :=
      records_chars text ValidScalar (Or.inl (by rw [qc]; omega)) hval
    have hheadv : ∀ f ∈ header, ValidText f := by
      intro f hf c hc
      exact hfv header (by rw [hrec]; exact List.mem_cons_self _ _) f hf c hc
    have hdatav : ∀ r ∈ dataRecs, ∀ f ∈ r, ValidText f := by
      intro r hr f hf c hc
      exact hfv r (by rw [hrec]; exact List.mem_cons_of_mem _ hr) f hf c hc
    have hne : header ≠ [] :=
      records_ne_nil text header (by rw [hrec]; exact List.mem_cons_self _ _)
    have hgoal : ∀ recs : List (List Text), (∀ r ∈ recs, r.length ≤ header.length) →
        (∀ r ∈ recs, ∀ f ∈ r, ValidText f) → LoadedInv (mkTable header recs) := by
      intro recs hlen hrecv
      refine ⟨mkTable_wf header recs hlen, ?_, ?_, ?_⟩
      · rw [mkTable_ncols]
        cases hh : header with
        | nil => exact absurd hh hne
        | cons a l => simp
      · intro n hn
        have : (mkTable header recs).header = fixHeaderAux 0 header := by
          rw [mkTable]
        rw [this] at hn
        exact fixHeaderAux_props 0 header hheadv n hn
      · intro j hj
        rw [mkTable_ncols] at hj
        rw [colCells_mkTable header recs j hj hlen]
        refine convertField_colOK _ ?_
        refine colFields_valid _ j ?_
        intro r hr
        obtain ⟨r0, hr0, rfl⟩ := List.mem_map.mp hr
        exact padRow_fields_valid _ r0 (hrecv r0 hr0)
    cases dataRecs with
    | nil =>
      simp only [loadText, hrec] at h
      have ht : t = mkTable header [] := (Except.ok.inj h).symm
      subst ht
      exact hgoal [] (fun r hr => absurd hr (List.not_mem_nil r))
        (fun r hr => absurd hr (List.not_mem_nil r))
    | cons first rest =>
      simp only [loadText, hrec] at h
      by_cases hany : (first :: rest).any (fun r => first.length < r.length) = true
      · rw [if_pos hany] at h
        exact Except.noConfusion h
      · rw [if_neg hany] at h
        have ht : t = mkTable header
            ((first :: rest).map (fun r => r.drop (first.length - header.length))) :=
          (Except.ok.inj h).symm
        subst ht
        have hwle : ∀ r ∈ first :: rest, r.length ≤ first.length := by
          intro r hr
          by_contra hlt
          exact hany (List.any_eq_true.mpr ⟨r, hr, by
            simp only [decide_eq_true_eq]
            omega⟩)
        refine hgoal _ ?_ ?_
        · intro r' hr'
          obtain ⟨r, hr, rfl⟩ := List.mem_map.mp hr'
          rw [List.length_drop]
          have := hwle r hr
          omega
        · intro r' hr' f hf
          obtain ⟨r, hr, rfl⟩ := List.mem_map.mp hr'
          exact hdatav r hr f (List.mem_of_mem_drop hf)

theorem toNull_nil : toNull [] = true := by decide

theorem colOK_cell_roundtrip (cs : List Cell) (hcol : ColOK cs) :
    ∀ cell ∈ cs, convertField (inferColType (cs.map renderCell)) (renderCell cell) = cell := by
  rcases hcol with hall | ⟨hall, hex⟩ | ⟨hall, hex⟩
  · have hτ : inferColType (cs.map renderCell) = ColType.int := by
      rw [inferColType, if_pos]
      rw [List.all_eq_true]
      intro f hf
      obtain ⟨c, hc, rfl⟩ := List.mem_map.mp hf
      rw [Bool.or_eq_true]
      rcases hall c hc with rfl | ⟨n, rfl⟩
      · left
        exact toNull_nil
      · right
        show (parseIntText (renderInt n)).isSome = true
        rw [parseIntText_renderInt]
        rfl
    rw [hτ]
    intro cell hc
    rcases hall cell hc with rfl | ⟨n, rfl⟩
    · exact convertField_null _
    · exact convertField_int _ n (toNull_renderInt n) (parseIntText_renderInt n)
  · obtain ⟨c0, hc0, q0, rfl⟩ := hex
    have hτ : inferColType (cs.map renderCell) = ColType.float := by
      rw [inferColType, if_neg, if_pos]
      · rw [List.all_eq_true]
        intro f hf
        obtain ⟨c, hc, rfl⟩ := List.mem_map.mp hf
        rw [Bool.or_eq_true]
        rcases hall c hc with rfl | ⟨q, rfl, hdec⟩
        · left
          exact toNull_nil
        · right
          show (parseFloatText (renderRat q)).isSome = true
          rw [parseFloatText_renderRat q hdec]
          rfl
      · intro hallint
        rw [List.all_eq_true] at hallint
        have := hallint (renderCell (Cell.float q0)) (List.mem_map_of_mem _ hc0)
        show False
        rw [Bool.or_eq_true] at this
        rcases this with h | h
        · rw [show renderCell (Cell.float q0) = renderRat q0 from rfl,
            toNull_renderRat] at h
          exact Bool.noConfusion h
        · rw [show renderCell (Cell.float q0) = renderRat q0 from rfl,
            parseIntText_renderRat] at h
          exact Bool.noConfusion h
    rw [hτ]
    intro cell hc
    rcases hall cell hc with rfl | ⟨q, rfl, hdec⟩
    · exact convertField_null _
    · exact convertField_float _ q (toNull_renderRat q) (parseFloatText_renderRat q hdec)
  · obtain ⟨c0, hc0, s0, rfl, hpf0⟩ := hex
    have hs0null : toNull s0 = false := by
      rcases hall _ hc0 with h | ⟨s, hs, hnull, _⟩
      · exact Cell.noConfusion h
      · obtain rfl : s0 = s := Cell.str.inj hs
        exact hnull
    have hwitness : (toNull (renderCell (Cell.str s0))
        || (parseFloatText (renderCell (Cell.str s0))).isSome) = false := by
      show (toNull s0 || (parseFloatText s0).isSome) = false
      rw [hs0null, hpf0]
      rfl
    have hτ : inferColType (cs.map renderCell) = ColType.text := by
      rw [inferColType, if_neg, if_neg]
      · intro hallfloat
        rw [List.all_eq_true] at hallfloat
        have := hallfloat (renderCell (Cell.str s0)) (List.mem_map_of_mem _ hc0)
        rw [hwitness] at this
        exact Bool.noConfusion this
      · intro hallint
        rw [List.all_eq_true] at hallint
        have := hallint (renderCell (Cell.str s0)) (List.mem_map_of_mem _ hc0)
        show False
        rw [Bool.or_eq_true] at this
        rcases this with h | h
        · rw [show renderCell (Cell.str s0) = s0 from rfl, hs0null] at h
          exact Bool.noConfusion h
        · rw [show renderCell (Cell.str s0) = s0 from rfl,
            parseFloat_none_imp_parseInt_none s0 hpf0] at h
          exact Bool.noConfusion h
    rw [hτ]
    intro cell hc
    rcases hall cell hc with rfl | ⟨s, rfl, hnull, _⟩
    · exact convertField_null _
    · exact convertField_text s hnull

theorem padRow_self (n : Nat) (r : List Text) (h : r.length = n) : padRow n r = r := by
  rw [padRow, h]
  simp

theorem getD_map_renderCell (row : List Cell) (j : Nat) (h : j < row.length) :
    (row.map renderCell).getD j [] = renderCell (row.getD j Cell.null) :=
  getD_map_getD renderCell row j Cell.null h

theorem colFields_export (rows : List (List Cell)) (n : Nat) (j : Nat)
    (hwf : ∀ r ∈ rows, r.length = n) (hj : j < n) :
    colFields (rows.map (fun row => row.map renderCell)) j
      = (rows.map (fun r => r.getD j Cell.null)).map renderCell := by
  rw [colFields]
  simp only [List.map_map]
  refine List.map_congr_left ?_
  intro row hrow
  simp only [Function.comp]
  exact getD_map_renderCell row j (by rw [hwf row hrow]; omega)

theorem renderCell_ne_nil_of_colOK (cs : List Cell) (hcol : ColOK cs) :
    ∀ c ∈ cs, c ≠ Cell.null → renderCell c ≠ [] := by
  intro c hc hne
  rcases hcol with hall | ⟨hall, _⟩ | ⟨hall, _⟩
  · rcases hall c hc with rfl | ⟨n, rfl⟩
    · exact absurd rfl hne
    · exact renderInt_ne_nil n
  · rcases hall c hc with rfl | ⟨q, rfl, _⟩
    · exact absurd rfl hne
    · exact renderRat_ne_nil q
  · rcases hall c hc with rfl | ⟨s, rfl, hnull, _⟩
    · exact absurd rfl hne
    · show s ≠ []
      intro hs
      rw [hs, toNull_nil] at hnull
      exact Bool.noConfusion hnull

theorem mkTable_render_id (th : List Text) (tr : List (List Cell))
    (hwf : ∀ r ∈ tr, r.length = th.length)
    (hnames : ∀ nn ∈ th, nn ≠ [] ∧ ValidText nn)
    (hcols : ∀ j < th.length, ColOK (colCells ⟨th, tr⟩ j)) :
    mkTable th (tr.map (fun row => row.map renderCell)) = ⟨th, tr⟩ := by
  have hpadded : (tr.map (fun row => row.map renderCell)).map (padRow th.length)
      = tr.map (fun row => row.map renderCell) := by
    rw [List.map_map]
    refine List.map_congr_left ?_
    intro row hrow
    simp only [Function.comp]
    refine padRow_self _ _ ?_
    rw [List.length_map, hwf row hrow]
  have hH : fixHeaderAux 0 th = th :=
    fixHeaderAux_id 0 th (fun nn hnn => (hnames nn hnn).1)
  have hR : (tr.map (fun row => row.map renderCell)).map
      (fun r => List.zipWith convertField
        ((List.range th.length).map
          (fun j => inferColType (colFields (tr.map (fun row => row.map renderCell)) j))) r)
      = tr := by
    rw [List.map_map]
    have hid : ∀ row ∈ tr,
        ((fun r => List.zipWith convertField
          ((List.range th.length).map
            (fun j => inferColType (colFields (tr.map (fun row => row.map renderCell)) j))) r)
          ∘ (fun row => row.map renderCell)) row = id row := by
      intro row hrow
      simp only [Function.comp, id]
      have hrl : row.length = th.length := hwf row hrow
      refine List.ext_getElem ?_ ?_
      · rw [List.length_zipWith, List.length_map, List.length_range, List.length_map]
        omega
      · intro j hj1 hj2
        have hjn : j < th.length := by
          rw [List.length_zipWith, List.length_map, List.length_range,
            List.length_map] at hj1
          omega
        rw [List.getElem_zipWith, List.getElem_map, List.getElem_range, List.getElem_map]
        have hcf : colFields (tr.map (fun row => row.map renderCell)) j
            = (tr.map (fun r => r.getD j Cell.null)).map renderCell :=
          colFields_export tr th.length j hwf hjn
        rw [hcf]
        have hcell : row[j] ∈ colCells ⟨th, tr⟩ j := by
          rw [colCells]
          have hgd : row.getD j Cell.null = row[j] :=
            List.getD_eq_getElem row Cell.null (by omega)
          rw [← hgd]
          exact List.mem_map_of_mem _ hrow
        have hrt := colOK_cell_roundtrip (colCells ⟨th, tr⟩ j) (hcols j hjn) row[j] hcell
        rw [colCells] at hrt
        exact hrt
    rw [List.map_congr_left hid, List.map_id]
  simp only [mkTable, hpadded]
  rw [hH, hR]

theorem loadText_exportText (t : Table) (hinv : LoadedInv t)
    (hnb : 2 ≤ t.header.length ∨ ∀ r ∈ t.rows, Cell.null ∉ r) :
    loadText (exportText t) = .ok t := by
  obtain ⟨th, tr⟩ := t
  obtain ⟨hwf, hlen1, hnames, hcols⟩ := hinv
  dsimp only [Table.wf] at hwf hlen1 hnames hcols hnb
  have hrecs_cond : ∀ r ∈ th :: tr.map (fun row => row.map renderCell),
      r ≠ [] ∧ r ≠ [[]] := by
    intro r hr
    rcases List.mem_cons.mp hr with h1 | hr
    · rw [h1]
      constructor
      · intro h
        rw [h] at hlen1
        simp at hlen1
      · intro h
        have hmem : ([] : Text) ∈ th := by
          rw [h]
          exact List.mem_cons_self _ _
        exact (hnames [] hmem).1 rfl
    · obtain ⟨row, hrow, rfl⟩ := List.mem_map.mp hr
      have hrl : row.length = th.length := hwf row hrow
      constructor
      · intro h
        have hlen0 : row.length = 0 := by
          have h2 := congrArg List.length h
          rwa [List.length_map, List.length_nil] at h2
        omega
      · intro h
        have hrowlen : row.length = 1 := by
          have := congrArg List.length h
          simpa using this
        obtain ⟨c, rfl⟩ : ∃ c, row = [c] := by
          cases row with
          | nil => simp at hrowlen
          | cons a l =>
            cases l with
            | nil => exact ⟨a, rfl⟩
            | cons b l2 => simp at hrowlen
        have hrc : renderCell c = [] := by
          have := List.cons.inj h
          exact this.1
        have hc0 : c ∈ colCells ⟨th, tr⟩ 0 := by
          rw [colCells]
          have : ([c] : List Cell).getD 0 Cell.null = c := rfl
          rw [← this]
          exact List.mem_map_of_mem _ hrow
        have hcol0 := hcols 0 (by omega)
        by_cases hcn : c = Cell.null
        · rcases hnb with h2 | h2
          · omega
          · subst hcn
            exact (h2 [Cell.null] hrow) (List.mem_singleton.mpr rfl)
        · exact renderCell_ne_nil_of_colOK _ hcol0 c hc0 hcn hrc
  have hrecords : records (exportText ⟨th, tr⟩)
      = th :: tr.map (fun row => row.map renderCell) := by
    rw [exportText]
    exact records_renderDoc _ hrecs_cond
  cases tr with
  | nil =>
    simp only [List.map_nil] at hrecords
    simp only [loadText, hrecords]
    exact congrArg Except.ok (mkTable_render_id th [] hwf hnames hcols)
  | cons row0 tr' =>
    simp only [List.map_cons] at hrecords
    simp only [loadText, hrecords]
    have hfl : (row0.map renderCell).length = th.length := by
      rw [List.length_map]
      exact hwf row0 (List.mem_cons_self _ _)
    have hany : ((row0.map renderCell) :: tr'.map (fun row => row.map renderCell)).any
        (fun r => (row0.map renderCell).length < r.length) = false := by
      rw [List.any_eq_false]
      intro r hr
      simp only [decide_eq_true_eq]
      rcases List.mem_cons.mp hr with h1 | h1
      · rw [h1]
        omega
      · obtain ⟨row, hrow, rfl⟩ := List.mem_map.mp h1
        simp only [List.length_map]
        rw [hwf row0 (List.mem_cons_self _ _), hwf row (List.mem_cons_of_mem _ hrow)]
        omega
    rw [hany]
    simp only [Bool.false_eq_true, if_false]
    have hk : (row0.map renderCell).length - th.length = 0 := by
      rw [hfl, Nat.sub_self]
    rw [hk]
    simp only [List.drop_zero, List.map_id']
    exact congrArg Except.ok (mkTable_render_id th (row0 :: tr') hwf hnames hcols)

theorem escQuotes_chars (f : Text) (c : Nat) (hc : c ∈ escQuotes f) : c ∈ f ∨ c = qc := by
  rw [escQuotes] at hc
  obtain ⟨x, hx, hcx⟩ := List.mem_flatMap.mp hc
  by_cases hq : x = qc
  · rw [if_pos hq] at hcx
    rcases List.mem_cons.mp hcx with h | h
    · exact Or.inr h
    · rcases List.mem_singleton.mp h with rfl
      exact Or.inr rfl
  · rw [if_neg hq] at hcx
    rcases List.mem_singleton.mp hcx with rfl
    exact Or.inl hx

theorem renderField_chars (f : Text) (c : Nat) (hc : c ∈ renderField f) :
    c ∈ f ∨ c = qc := by
  rw [renderField] at hc
  split at hc
  · rcases List.mem_cons.mp hc with h | h
    · exact Or.inr h
    · rcases List.mem_append.mp h with h2 | h2
      · exact escQuotes_chars f c h2
      · rcases List.mem_singleton.mp h2 with rfl
        exact Or.inr rfl
  · exact Or.inl hc

theorem renderRecord_chars (r : List Text) (c : Nat) (hc : c ∈ renderRecord r) :
    (∃ f ∈ r, c ∈ f) ∨ c = qc ∨ c = cc := by
  cases r with
  | nil => exact absurd hc (List.not_mem_nil c)
  | cons f fs =>
    rw [renderRecord] at hc
    rcases List.mem_append.mp hc with h | h
    · rcases renderField_chars f c h with h2 | h2
      · exact Or.inl ⟨f, List.mem_cons_self f fs, h2⟩
      · exact Or.inr (Or.inl h2)
    · obtain ⟨x, hx, hcx⟩ := List.mem_flatten.mp h
      obtain ⟨g, hg, rfl⟩ := List.mem_map.mp hx
      rcases List.mem_cons.mp hcx with h2 | h2
      · exact Or.inr (Or.inr h2)
      · rcases renderField_chars g c h2 with h3 | h3
        · exact Or.inl ⟨g, List.mem_cons_of_mem f hg, h3⟩
        · exact Or.inr (Or.inl h3)

theorem renderDoc_chars (rs : List (List Text)) (c : Nat) (hc : c ∈ renderDoc rs) :
    (∃ r ∈ rs, ∃ f ∈ r, c ∈ f) ∨ c = qc ∨ c = cc ∨ c = nlc := by
  rw [renderDoc] at hc
  obtain ⟨x, hx, hcx⟩ := List.mem_flatten.mp hc
  obtain ⟨r, hr, rfl⟩ := List.mem_map.mp hx
  rcases List.mem_append.mp hcx with h | h
  · rcases renderRecord_chars r c h with ⟨f, hf, hcf⟩ | h2 | h2
    · exact Or.inl ⟨r, hr, f, hf, hcf⟩
    · exact Or.inr (Or.inl h2)
    · exact Or.inr (Or.inr (Or.inl h2))
  · rcases List.mem_singleton.mp h with rfl
    exact Or.inr (Or.inr (Or.inr rfl))

theorem cell_in_some_column (t : Table) (row : List Cell) (hrow : row ∈ t.rows)
    (cell : Cell) (hcell : cell ∈ row) (hwf : t.wf) :
    ∃ j < t.header.length, cell ∈ colCells t j := by
  obtain ⟨j, hj, rfl⟩ := List.mem_iff_getElem.mp hcell
  refine ⟨j, by rw [← hwf row hrow]; omega, ?_⟩
  rw [colCells]
  have hgd : row.getD j Cell.null = row[j] := List.getD_eq_getElem row Cell.null hj
  rw [← hgd]
  exact List.mem_map_of_mem _ hrow

theorem renderCell_valid_of_colOK (cs : List Cell) (hcol : ColOK cs) (c : Cell)
    (hc : c ∈ cs) : ValidText (renderCell c) := by
  rcases hcol with hall | ⟨hall, _⟩ | ⟨hall, _⟩
  · rcases hall c hc with rfl | ⟨n, rfl⟩
    · intro x hx; exact absurd hx (List.not_mem_nil x)
    · exact validText_renderInt n
  · rcases hall c hc with rfl | ⟨q, rfl, _⟩
    · intro x hx; exact absurd hx (List.not_mem_nil x)
    · exact validText_renderRat q
  · rcases hall c hc with rfl | ⟨s, rfl, _, hval⟩
    · intro x hx; exact absurd hx (List.not_mem_nil x)
    · exact hval

theorem exportText_valid (t : Table) (hinv : LoadedInv t) : ValidText (exportText t) := by
  obtain ⟨hwf, _, hnames, hcols⟩ := hinv
  intro c hc
  rw [exportText] at hc
  rcases renderDoc_chars _ c hc with ⟨r, hr, f, hf, hcf⟩ | h | h | h
  · rcases List.mem_cons.mp hr with h1 | h1
    · exact (hnames f (h1 ▸ hf)).2 c hcf
    · obtain ⟨row, hrow, rfl⟩ := List.mem_map.mp h1
      obtain ⟨cell, hcell, rfl⟩ := List.mem_map.mp hf
      obtain ⟨j, hj, hmem⟩ := cell_in_some_column t row hrow cell hcell hwf
      exact renderCell_valid_of_colOK _ (hcols j hj) cell hmem c hcf
  · rw [h, qc]
    exact Or.inl (by omega)
  · rw [h, cc]
    exact Or.inl (by omega)
  · rw [h, nlc]
    exact Or.inl (by omega)

/-- Counterexample to C3 as stated: the one-column input "a" with rows "NA"
and "x" loads to a null row and a text row; the null exports as a blank
line, which the reader skips, so the second load drops the row and the
round trip fails. -/
theorem load_export_load_counterexample :
    loadBytes (strToBytes "a\nNA\nx\n")
      = .ok ⟨[strToText "a"], [[Cell.null], [Cell.str (strToText "x")]]⟩
    ∧ loadBytes (exportBytes ⟨[strToText "a"], [[Cell.null], [Cell.str (strToText "x")]]⟩)
      = .ok ⟨[strToText "a"], [[Cell.str (strToText "x")]]⟩
    ∧ (⟨[strToText "a"], [[Cell.null], [Cell.str (strToText "x")]]⟩ : Table)
      ≠ ⟨[strToText "a"], [[Cell.str (strToText "x")]]⟩ := by
  refine ⟨by decide, by decide, by decide⟩

/-- C3 amended: for every input whose load succeeds, exporting and loading
again returns the same table, provided the loaded table does not contain an
all-null row in a one-column table (such a row serializes to a blank line,
which the loader skips). -/
theorem load_export_load_roundtrip (bs : List Nat) (t : Table)
    (h : loadBytes bs = .ok t)
    (hnb : 2 ≤ t.header.length ∨ ∀ r ∈ t.rows, Cell.null ∉ r) :
    loadBytes (exportBytes t) = .ok t := by
  have hinv : LoadedInv t := by
    rw [loadBytes] at h
    cases hdec : utf8Decode bs with
    | none => rw [hdec] at h; exact Except.noConfusion h
    | some text =>
      rw [hdec] at h
      exact loadText_inv text t (utf8Decode_valid bs text hdec) h
  rw [loadBytes, exportBytes, utf8Decode_encode _ (exportText_valid t hinv)]
  exact loadText_exportText t hinv hnb

/-- Witness for C3's amended round trip at the spec's scenario input. -/
theorem load_export_load_roundtrip_witness :
    ∃ t, loadBytes (strToBytes "a,b\n1,x\n2,y\n1,z\n") = .ok t
      ∧ 2 ≤ t.header.length
      ∧ loadBytes (exportBytes t) = .ok t := by
  refine ⟨⟨[strToText "a", strToText "b"],
    [[Cell.int 1, Cell.str (strToText "x")], [Cell.int 2, Cell.str (strToText "y")],
     [Cell.int 1, Cell.str (strToText "z")]]⟩, by decide, by decide, ?_⟩
  exact load_export_load_roundtrip (strToBytes "a,b\n1,x\n2,y\n1,z\n") _ (by decide)
    (Or.inl (by decide))
